import Mathlib

/-!
# Verification of the randomized closure solver

Shallow embedding of `src/solvers.py` (class `ClosureSolver`) from the
repository `graph-closure-probablistic-analysis`.

The original graph is an edge-list directed graph (networkx `DiGraph`).
The external library calls `nx.strongly_connected_components` and
`nx.condensation` are modelled by their documented semantics: SCCs are the
equivalence classes of mutual reachability, and the condensation has one
node per SCC (labelled by its index in the SCC list) with an edge between
distinct SCCs whenever some original edge joins their members.

Python `int` values that may go negative (`current_weight`, `best_weight`,
entries of the copied in-degree table, the target `k`) are modelled as `Int`;
counters that stay non-negative (`op_count`, attempt indices) as `Nat`.
The global `random` source is modelled as an explicit stream
`rand : Nat → Nat`, with `random.randrange(len)` read as `rand i % len`
at the `i`-th draw; the wall-clock budget test
`(time.perf_counter() - start_time) > max_time_sec` at the start of attempt
`i` is modelled as an oracle `timeEx : Nat → Bool`.  Python's `hash` of a
`frozenset` is modelled as the set itself (hashing is treated as injective).
-/
namespace ClosureSolver

/-- A directed graph given by its node list and edge list, as a networkx
`DiGraph` built with `add_nodes_from` / `add_edges_from`. -/
structure Digraph where
  nodes : List Nat
  edges : List (Nat × Nat)
deriving DecidableEq

/-- Well-formed graph: distinct node labels and every edge endpoint is a
registered node (networkx `add_edge` registers endpoints as nodes). -/
def Digraph.WF (G : Digraph) : Prop :=
  G.nodes.Nodup ∧ ∀ e ∈ G.edges, e.1 ∈ G.nodes ∧ e.2 ∈ G.nodes

instance (G : Digraph) : Decidable (Digraph.WF G) := by
  unfold Digraph.WF; infer_instance

/-- `G.successors u` of networkx: targets of the edges leaving `u`. -/
def Digraph.succs (G : Digraph) (u : Nat) : List Nat :=
  (G.edges.filter (fun e => e.1 = u)).map Prod.snd

/-- The single-step edge relation of the original graph. -/
def Digraph.Edge (G : Digraph) (u v : Nat) : Prop := (u, v) ∈ G.edges

/-- Reachability in the original graph (reflexive-transitive closure). -/
def Digraph.Reach (G : Digraph) (u v : Nat) : Prop :=
  Relation.ReflTransGen G.Edge u v

/-- One round of breadth-first expansion: keep the set and add every
successor of a member. -/
def reachStep (G : Digraph) (s : Finset Nat) : Finset Nat :=
  s ∪ s.biUnion (fun u => (G.succs u).toFinset)

/-- The set of vertices reachable from `u`, computed by `|nodes|` rounds of
expansion (enough to reach the fixed point on a well-formed graph). -/
def reachF (G : Digraph) (u : Nat) : Finset Nat :=
  (reachStep G)^[G.nodes.length] {u}

/-- Mutual reachability: the SCC equivalence used by
`nx.strongly_connected_components`. -/
def MutualReach (G : Digraph) (u v : Nat) : Prop :=
  v ∈ reachF G u ∧ u ∈ reachF G v

instance (G : Digraph) (u v : Nat) : Decidable (MutualReach G u v) := by
  unfold MutualReach; infer_instance

/-- The strongly connected component of `v`, as a set of original nodes. -/
def sccOf (G : Digraph) (v : Nat) : Finset Nat :=
  G.nodes.toFinset.filter (fun w => MutualReach G v w)

/-- The list of strongly connected components
(`list(nx.strongly_connected_components(G))`, one entry per class). -/
def sccs (G : Digraph) : List (Finset Nat) :=
  (G.nodes.map (sccOf G)).dedup

/-- The label of `v`'s SCC in the condensation
(`nx.condensation`'s `mapping[v]`). -/
def compId (G : Digraph) (v : Nat) : Nat :=
  (sccs G).findIdx (fun c => decide (v ∈ c))

/-!
## The solver state after `ClosureSolver.__init__`

Field-by-field translation of the attributes set up by `__init__` and
`_get_condensation_dag`:
* `graph` is `self.original_graph`;
* `dagNodes` is `list(self.dag.nodes())` — `nx.condensation` labels the
  components `0 .. len(scc_list)-1`;
* `dagAdj i` is `self.dag_adj[i]`: the distinct condensation successors of
  supernode `i` (`nx.condensation` adds `(mapping[u], mapping[v])` for every
  original edge `(u, v)` with `mapping[u] != mapping[v]`, and a `DiGraph`
  stores each edge once);
* `dagWeight i` is `self.dag.nodes[i]['weight'] = len(members)`;
* `sccMapping i` is `self.scc_mapping[i]`;
* `totalWeight` is `self.original_graph.number_of_nodes()`.
-/
structure Solver where
  graph : Digraph
  dagNodes : List Nat
  dagAdj : Nat → List Nat
  dagWeight : Nat → Nat
  sccMapping : Nat → Finset Nat
  totalWeight : Nat

/-- `ClosureSolver(G)`: build the condensation DAG and the precomputed
tables. -/
def mkSolver (G : Digraph) : Solver where
  graph := G
  dagNodes := List.range (sccs G).length
  dagAdj := fun i =>
    ((G.edges.filter (fun e => compId G e.1 = i ∧ compId G e.2 ≠ i)).map
      (fun e => compId G e.2)).dedup
  dagWeight := fun i => ((sccs G).getD i ∅).card
  sccMapping := fun i => (sccs G).getD i ∅
  totalWeight := G.nodes.length

/-- `self.dag_initial_in_degree[v]`: starts at `0` and gains `1` for every
occurrence of `v` in an adjacency list. -/
def Solver.dagInitialInDegree (S : Solver) (v : Nat) : Nat :=
  ((S.dagNodes.map S.dagAdj).flatten).count v

/-- The edge relation of the condensation DAG, read off the precomputed
adjacency table. -/
def Solver.DagEdge (S : Solver) (i j : Nat) : Prop := j ∈ S.dagAdj i

/-!
## `verify_closure`

`verify_closure` iterates the candidate set; for each member it enumerates
`self.original_graph.successors(u)`, which raises (`NetworkXError`) when `u`
is not a node of the graph.  The fallible call is modelled with `Option`
(`none` = exception).  Python set iteration order is modelled as ascending
order (CPython's small-int set order for these graphs is deterministic). -/
/-- The members of a finite set of naturals, enumerated in ascending
order. -/
def ascList (c : Finset Nat) : List Nat :=
  (List.range (c.sup id + 1)).filter (fun x => decide (x ∈ c))

def verifyList (G : Digraph) (c : Finset Nat) : List Nat → Option Bool
  | [] => some true
  | u :: rest =>
      if u ∈ G.nodes then
        if (G.succs u).all (fun v => decide (v ∈ c)) then verifyList G c rest
        else some false
      else none

/-- `ClosureSolver.verify_closure(closure_nodes)` on the solver's original
graph. -/
def verify_closure (G : Digraph) (c : Finset Nat) : Option Bool :=
  if c = ∅ then some true
  else verifyList G c (ascList c)

/-!
## `solve_randomized_top_down`

The attempt-local loop state (`current_nodes`, `current_weight`,
`in_degree`, `sources`, `removed_sequence`) plus the cross-attempt counters
that the inner loop advances (`op_count` and the position in the random
stream). -/
structure AttemptState where
  currentNodes : Finset Nat
  currentWeight : Int
  inDegree : Nat → Int
  sources : List Nat
  removedSeq : List Nat
  opCount : Nat
  randIdx : Nat

/-- The inner `for v in self.dag_adj[node_to_remove]` loop: one traversal op
per successor; for successors still present, decrement the private in-degree
and push onto the frontier on reaching zero. -/
def processSuccs (current : Finset Nat) :
    List Nat → (Nat → Int) → List Nat → Nat → (Nat → Int) × List Nat × Nat
  | [], deg, srcs, ops => (deg, srcs, ops)
  | v :: rest, deg, srcs, ops =>
      if v ∈ current then
        let deg1 := Function.update deg v (deg v - 1)
        if deg1 v = 0 then processSuccs current rest deg1 (srcs ++ [v]) (ops + 1)
        else processSuccs current rest deg1 srcs (ops + 1)
      else processSuccs current rest deg srcs (ops + 1)

/-- One iteration of the reduction loop body: draw a random frontier index
(`random.randrange(len(sources))` modelled as `rand st.randIdx % len`),
remove the picked node by swap-with-last-and-truncate, subtract its weight,
record it, and process its successors. -/
def attemptStep (S : Solver) (rand : Nat → Nat) (st : AttemptState) :
    AttemptState :=
  let idx := rand st.randIdx % st.sources.length
  let node := st.sources.getD idx 0
  let sources1 := (st.sources.set idx (st.sources.getLast?.getD 0)).dropLast
  let currentNodes1 := st.currentNodes.erase node
  let pr := processSuccs currentNodes1 (S.dagAdj node) st.inDegree
    sources1 (st.opCount + 1)
  { currentNodes := currentNodes1
    currentWeight := st.currentWeight - (S.dagWeight node : Int)
    inDegree := pr.1
    sources := pr.2.1
    removedSeq := st.removedSeq ++ [node]
    opCount := pr.2.2
    randIdx := st.randIdx + 1 }

/-- The `while current_weight > k` reduction loop of one attempt.  `fuel` is
structural; callers pass `|dag nodes| + 1`, which is never exhausted since
every iteration removes a node. -/
def attemptLoop (S : Solver) (k : Int) (rand : Nat → Nat) :
    Nat → AttemptState → AttemptState
  | 0, st => st
  | fuel + 1, st =>
      if st.currentWeight ≤ k then st
      else if st.sources.isEmpty then st
      else attemptLoop S k rand fuel (attemptStep S rand st)

/-- Attempt-local initialisation: full supernode set, total weight, a private
copy of the shared in-degree table, and the initial zero-in-degree
frontier. -/
def initAttempt (S : Solver) (ops ridx : Nat) : AttemptState where
  currentNodes := S.dagNodes.toFinset
  currentWeight := (S.totalWeight : Int)
  inDegree := fun v => (S.dagInitialInDegree v : Int)
  sources := S.dagNodes.filter (fun u => S.dagInitialInDegree u == 0)
  removedSeq := []
  opCount := ops
  randIdx := ridx

/-- One complete attempt, starting from the given cross-attempt counters. -/
def runAttempt (S : Solver) (k : Int) (rand : Nat → Nat) (ops ridx : Nat) :
    AttemptState :=
  attemptLoop S k rand (S.dagNodes.length + 1) (initAttempt S ops ridx)

/-- State carried across attempts inside one `solve` call.  `visited` models
`visited_states` with `hash(frozenset(removed_sequence))` idealised as the
removed-supernode set itself. -/
structure SolveState where
  visited : Finset (Finset Nat)
  opCount : Nat
  bestClosure : Option (Finset Nat)
  bestWeight : Int
  attemptsDone : Nat
  randIdx : Nat

/-- The `for attempt in range(max_retries)` loop.  `i` is the current
attempt index, `fuel` the remaining retries.  `attempts_done = attempt + 1`
is recorded before the between-attempt wall-clock test `timeEx i`. -/
def solveLoop (S : Solver) (k : Int) (rand : Nat → Nat) (timeEx : Nat → Bool) :
    Nat → Nat → SolveState → SolveState
  | 0, _, st => st
  | fuel + 1, i, st =>
      let st1 := { st with attemptsDone := i + 1 }
      if timeEx i then st1
      else
        let res := runAttempt S k rand st1.opCount st1.randIdx
        let st2 := { st1 with opCount := res.opCount, randIdx := res.randIdx }
        let stateSet := res.removedSeq.toFinset
        if stateSet ∈ st2.visited then
          solveLoop S k rand timeEx fuel (i + 1) st2
        else
          let st3 := { st2 with visited := insert stateSet st2.visited }
          if res.currentWeight ≤ k then
            let st4 :=
              if st3.bestWeight < res.currentWeight then
                { st3 with bestWeight := res.currentWeight,
                           bestClosure := some res.currentNodes }
              else st3
            if res.currentWeight = k then st4
            else solveLoop S k rand timeEx fuel (i + 1) st4
          else solveLoop S k rand timeEx fuel (i + 1) st3

/-- The tuple returned by `solve_randomized_top_down` (the float `"time"`
stat is not modelled). -/
structure SolveResult where
  found : Bool
  closure : Finset Nat
  attempts : Nat
  finalWeight : Int
  ops : Nat
  uniqueTested : Nat
deriving DecidableEq

def initSolveState : SolveState where
  visited := ∅
  opCount := 0
  bestClosure := none
  bestWeight := -1
  attemptsDone := 0
  randIdx := 0

/-- `ClosureSolver.solve_randomized_top_down(k, max_retries, ...)`.  The
first tuple element is the literal `True` of both `return` statements.
`if best_closure:` is falsy for `None` and for the empty set; expanding the
empty supernode set also yields `∅`, so both falsy cases are the `none`
branch's value. -/
def solve (S : Solver) (k : Int) (maxRetries : Nat) (rand : Nat → Nat)
    (timeEx : Nat → Bool) : SolveResult :=
  if (S.totalWeight : Int) ≤ k then
    { found := true, closure := S.graph.nodes.toFinset, attempts := 0,
      finalWeight := (S.totalWeight : Int), ops := 0, uniqueTested := 0 }
  else
    let st := solveLoop S k rand timeEx maxRetries 0 initSolveState
    let finalNodes : Finset Nat :=
      match st.bestClosure with
      | some c => c.biUnion S.sccMapping
      | none => ∅
    { found := true, closure := finalNodes, attempts := st.attemptsDone,
      finalWeight := st.bestWeight, ops := st.opCount,
      uniqueTested := st.visited.card }

/-- The example graph of the spec and of `tests/test_solvers.py`
(`add_edges_from` registers nodes in first-appearance order). -/
def exampleGraph : Digraph where
  nodes := [0, 1, 3, 4, 2]
  edges := [(0, 1), (0, 3), (3, 4), (4, 1), (1, 2), (2, 4)]

/-!
## Frame: `solve` leaves the shared precomputed tables untouched

The Python statements inside `solve_randomized_top_down` assign only to
attempt-local names; the in-degree table is a `.copy()`.  The `ST` variants
below thread the solver object through every loop step, mirroring which heap
object each statement writes to; the theorem that the threaded solver comes
back out unchanged (and the result agrees with the untouched-tables model)
expresses the frame property. -/
def attemptLoopST (k : Int) (rand : Nat → Nat) :
    Nat → Solver × AttemptState → Solver × AttemptState
  | 0, p => p
  | fuel + 1, p =>
      if p.2.currentWeight ≤ k then p
      else if p.2.sources.isEmpty then p
      else
        let idx := rand p.2.randIdx % p.2.sources.length
        let node := p.2.sources.getD idx 0
        let sources1 := (p.2.sources.set idx (p.2.sources.getLast?.getD 0)).dropLast
        let currentNodes1 := p.2.currentNodes.erase node
        let pr := processSuccs currentNodes1 (p.1.dagAdj node) p.2.inDegree
          sources1 (p.2.opCount + 1)
        attemptLoopST k rand fuel
          (p.1,
           { currentNodes := currentNodes1
             currentWeight := p.2.currentWeight - (p.1.dagWeight node : Int)
             inDegree := pr.1
             sources := pr.2.1
             removedSeq := p.2.removedSeq ++ [node]
             opCount := pr.2.2
             randIdx := p.2.randIdx + 1 })

def solveLoopST (k : Int) (rand : Nat → Nat) (timeEx : Nat → Bool) :
    Nat → Nat → Solver × SolveState → Solver × SolveState
  | 0, _, p => p
  | fuel + 1, i, p =>
      let st1 := { p.2 with attemptsDone := i + 1 }
      if timeEx i then (p.1, st1)
      else
        let q := attemptLoopST k rand (p.1.dagNodes.length + 1)
          (p.1, initAttempt p.1 st1.opCount st1.randIdx)
        let res := q.2
        let st2 := { st1 with opCount := res.opCount, randIdx := res.randIdx }
        let stateSet := res.removedSeq.toFinset
        if stateSet ∈ st2.visited then
          solveLoopST k rand timeEx fuel (i + 1) (q.1, st2)
        else
          let st3 := { st2 with visited := insert stateSet st2.visited }
          if res.currentWeight ≤ k then
            let st4 :=
              if st3.bestWeight < res.currentWeight then
                { st3 with bestWeight := res.currentWeight,
                           bestClosure := some res.currentNodes }
              else st3
            if res.currentWeight = k then (q.1, st4)
            else solveLoopST k rand timeEx fuel (i + 1) (q.1, st4)
          else solveLoopST k rand timeEx fuel (i + 1) (q.1, st3)

def solveST (S : Solver) (k : Int) (maxRetries : Nat) (rand : Nat → Nat)
    (timeEx : Nat → Bool) : Solver × SolveResult :=
  if (S.totalWeight : Int) ≤ k then
    (S, { found := true, closure := S.graph.nodes.toFinset, attempts := 0,
          finalWeight := (S.totalWeight : Int), ops := 0, uniqueTested := 0 })
  else
    let p := solveLoopST k rand timeEx maxRetries 0 (S, initSolveState)
    let finalNodes : Finset Nat :=
      match p.2.bestClosure with
      | some c => c.biUnion p.1.sccMapping
      | none => ∅
    (p.1,
     { found := true, closure := finalNodes, attempts := p.2.attemptsDone,
       finalWeight := p.2.bestWeight, ops := p.2.opCount,
       uniqueTested := p.2.visited.card })

/-- Well-formedness of the precomputed solver state; every field is
established by construction for `mkSolver`. -/
structure SolverWF (S : Solver) : Prop where
  nodesNodup : S.dagNodes.Nodup
  adjNodup : ∀ i, (S.dagAdj i).Nodup
  noSelfLoop : ∀ i, i ∉ S.dagAdj i
  adjClosed : ∀ i ∈ S.dagNodes, ∀ j ∈ S.dagAdj i, j ∈ S.dagNodes
  acyclic : ∀ i, ¬ Relation.TransGen S.DagEdge i i
  weightSum : (S.totalWeight : Int)
    = ∑ u ∈ S.dagNodes.toFinset, (S.dagWeight u : Int)

/-- The running invariant of one attempt: the remaining supernode set stays
inside the DAG and successor-closed, the private in-degree entry of `v`
counts the remaining predecessors of `v`, the frontier is exactly the
remaining zero-in-degree supernodes (duplicate-free), and the running weight
is the total weight of the remaining supernodes. -/
structure AttemptInv (S : Solver) (st : AttemptState) : Prop where
  subNodes : st.currentNodes ⊆ S.dagNodes.toFinset
  degCount : ∀ v, st.inDegree v
      = ((st.currentNodes.filter (fun u => v ∈ S.dagAdj u)).card : Int)
  closedDag : ∀ u ∈ st.currentNodes, ∀ j ∈ S.dagAdj u, j ∈ st.currentNodes
  srcNodup : st.sources.Nodup
  srcMem : ∀ x ∈ st.sources, x ∈ st.currentNodes
  srcZero : ∀ x ∈ st.sources, st.inDegree x = 0
  zeroSrc : ∀ x ∈ st.currentNodes, st.inDegree x = 0 → x ∈ st.sources
  weightEq : st.currentWeight = ∑ u ∈ st.currentNodes, (S.dagWeight u : Int)

/-- A supernode set that is inside the DAG and closed under DAG
successors. -/
def ClosedDagSet (S : Solver) (B : Finset Nat) : Prop :=
  B ⊆ S.dagNodes.toFinset ∧ ∀ i ∈ B, ∀ j ∈ S.dagAdj i, j ∈ B

/-!
## The list of scored attempts

`scoredLoop` mirrors `solveLoop` line by line and additionally collects, for
every scored (non-duplicate, weight ≤ k) attempt, the pair of its final
remaining weight and its removed-supernode set.  It exists only to state
what "the scored attempts of the call" are; its first component is proved
identical to `solveLoop`. -/
def scoredLoop (S : Solver) (k : Int) (rand : Nat → Nat) (timeEx : Nat → Bool) :
    Nat → Nat → SolveState → SolveState × List (Int × Finset Nat)
  | 0, _, st => (st, [])
  | fuel + 1, i, st =>
      let st1 := { st with attemptsDone := i + 1 }
      if timeEx i then (st1, [])
      else
        let res := runAttempt S k rand st1.opCount st1.randIdx
        let st2 := { st1 with opCount := res.opCount, randIdx := res.randIdx }
        let stateSet := res.removedSeq.toFinset
        if stateSet ∈ st2.visited then
          scoredLoop S k rand timeEx fuel (i + 1) st2
        else
          let st3 := { st2 with visited := insert stateSet st2.visited }
          if res.currentWeight ≤ k then
            let st4 :=
              if st3.bestWeight < res.currentWeight then
                { st3 with bestWeight := res.currentWeight,
                           bestClosure := some res.currentNodes }
              else st3
            if res.currentWeight = k then (st4, [(res.currentWeight, stateSet)])
            else
              let p := scoredLoop S k rand timeEx fuel (i + 1) st4
              (p.1, (res.currentWeight, stateSet) :: p.2)
          else scoredLoop S k rand timeEx fuel (i + 1) st3

/-- The scored attempts of one `solve` call (empty on the fast path, which
runs no attempts). -/
def scoredAttempts (S : Solver) (k : Int) (m : Nat) (rand : Nat → Nat)
    (timeEx : Nat → Bool) : List (Int × Finset Nat) :=
  if (S.totalWeight : Int) ≤ k then []
  else (scoredLoop S k rand timeEx m 0 initSolveState).2

/-- Maximum of a list of integers, `-1` for the empty list. -/
def listMaxNeg (l : List Int) : Int := l.foldl max (-1)

lemma subset_reachStep (G : Digraph) (s : Finset Nat) : s ⊆ reachStep G s :=
  Finset.subset_union_left

lemma reachStep_mono (G : Digraph) {s t : Finset Nat} (h : s ⊆ t) :
    reachStep G s ⊆ reachStep G t := by
  unfold reachStep
  apply Finset.union_subset
  · exact h.trans Finset.subset_union_left
  · refine Finset.Subset.trans ?_ Finset.subset_union_right
    exact Finset.biUnion_subset_biUnion_of_subset_left _ h

lemma subset_iterate_reachStep (G : Digraph) (s : Finset Nat) (n : Nat) :
    s ⊆ (reachStep G)^[n] s := by
  induction n with
  | zero => simp
  | succ n ih =>
      rw [Function.iterate_succ_apply']
      exact ih.trans (subset_reachStep G _)

lemma mem_reachF_self (G : Digraph) (u : Nat) : u ∈ reachF G u :=
  subset_iterate_reachStep G {u} _ (Finset.mem_singleton_self u)

lemma mem_succs_iff (G : Digraph) (u v : Nat) :
    v ∈ G.succs u ↔ (u, v) ∈ G.edges := by
  unfold Digraph.succs
  constructor
  · intro h
    rcases List.mem_map.mp h with ⟨e, he, rfl⟩
    rcases List.mem_filter.mp he with ⟨he1, he2⟩
    have : e.1 = u := by simpa using he2
    simpa [← this] using he1
  · intro h
    exact List.mem_map.mpr ⟨(u, v), List.mem_filter.mpr ⟨h, by simp⟩, rfl⟩

/-- Soundness: everything produced by the bounded expansion is reachable. -/
lemma reach_of_mem_iterate (G : Digraph) (u : Nat) (n : Nat) :
    ∀ v ∈ (reachStep G)^[n] {u}, G.Reach u v := by
  induction n with
  | zero =>
      intro v hv
      simp only [Function.iterate_zero, id_eq, Finset.mem_singleton] at hv
      subst hv; exact Relation.ReflTransGen.refl
  | succ n ih =>
      intro v hv
      rw [Function.iterate_succ_apply'] at hv
      rcases Finset.mem_union.mp hv with h | h
      · exact ih v h
      · rcases Finset.mem_biUnion.mp h with ⟨w, hw, hv'⟩
        have hwv : (w, v) ∈ G.edges := (mem_succs_iff G w v).mp (by simpa using hv')
        exact Relation.ReflTransGen.tail (ih w hw) hwv

lemma reach_of_mem_reachF (G : Digraph) {u v : Nat} (h : v ∈ reachF G u) :
    G.Reach u v :=
  reach_of_mem_iterate G u _ v h

lemma reachStep_subset_univ (G : Digraph) (hWF : G.WF) {s : Finset Nat}
    (hs : s ⊆ G.nodes.toFinset) : reachStep G s ⊆ G.nodes.toFinset := by
  unfold reachStep
  apply Finset.union_subset hs
  intro x hx
  rcases Finset.mem_biUnion.mp hx with ⟨w, _, hx'⟩
  have : (w, x) ∈ G.edges := (mem_succs_iff G w x).mp (by simpa using hx')
  exact List.mem_toFinset.mpr (hWF.2 _ this).2

lemma iterate_reachStep_subset_univ (G : Digraph) (hWF : G.WF) {u : Nat}
    (hu : u ∈ G.nodes) (n : Nat) :
    (reachStep G)^[n] {u} ⊆ G.nodes.toFinset := by
  induction n with
  | zero => simpa using List.mem_toFinset.mpr hu
  | succ n ih =>
      rw [Function.iterate_succ_apply']
      exact reachStep_subset_univ G hWF ih

lemma card_iterate_of_no_fix (G : Digraph) (u : Nat) (m : Nat)
    (h : ∀ i < m, (reachStep G)^[i] {u} ≠ (reachStep G)^[i + 1] {u}) :
    m + 1 ≤ ((reachStep G)^[m] {u}).card := by
  induction m with
  | zero => simp
  | succ m ih =>
      have h1 : m + 1 ≤ ((reachStep G)^[m] {u}).card :=
        ih (fun i hi => h i (Nat.lt_succ_of_lt hi))
      have hne : (reachStep G)^[m] {u} ≠ (reachStep G)^[m + 1] {u} :=
        h m (Nat.lt_succ_self m)
      have hsub : (reachStep G)^[m] {u} ⊆ (reachStep G)^[m + 1] {u} := by
        rw [Function.iterate_succ_apply']
        exact subset_reachStep G _
      have : ((reachStep G)^[m] {u}).card < ((reachStep G)^[m + 1] {u}).card :=
        Finset.card_lt_card (Finset.ssubset_iff_subset_ne.mpr ⟨hsub, hne⟩)
      omega

/-- `|nodes|` rounds of expansion reach the fixed point. -/
lemma reachStep_reachF (G : Digraph) (hWF : G.WF) {u : Nat} (hu : u ∈ G.nodes) :
    reachStep G (reachF G u) = reachF G u := by
  set n := G.nodes.length with hn
  have hcardu : ∀ m, ((reachStep G)^[m] {u}).card ≤ n := by
    intro m
    calc ((reachStep G)^[m] {u}).card ≤ G.nodes.toFinset.card :=
          Finset.card_le_card (iterate_reachStep_subset_univ G hWF hu m)
      _ ≤ n := (G.nodes.toFinset_card_le)
  have hex : ∃ i < n, (reachStep G)^[i] {u} = (reachStep G)^[i + 1] {u} := by
    by_contra hcon
    push_neg at hcon
    have := card_iterate_of_no_fix G u n (fun i hi => hcon i hi)
    have := hcardu n
    omega
  rcases hex with ⟨i, hi, hfix⟩
  have hfix' : reachStep G ((reachStep G)^[i] {u}) = (reachStep G)^[i] {u} := by
    have := Function.iterate_succ_apply' (reachStep G) i ({u} : Finset Nat)
    rw [← this]
    exact hfix.symm
  have hstable : ∀ j, (reachStep G)^[i + j] {u} = (reachStep G)^[i] {u} := by
    intro j
    rw [Nat.add_comm, Function.iterate_add_apply]
    exact Function.iterate_fixed hfix' j
  have h1 : reachF G u = (reachStep G)^[i] {u} := by
    unfold reachF
    rw [← hn, ← Nat.add_sub_cancel' (Nat.le_of_lt hi)]
    exact hstable (n - i)
  rw [h1, hfix']

/-- `reachF` is closed under taking successors (on a well-formed graph). -/
lemma reachF_closed (G : Digraph) (hWF : G.WF) {u v w : Nat} (hu : u ∈ G.nodes)
    (hv : v ∈ reachF G u) (hvw : (v, w) ∈ G.edges) : w ∈ reachF G u := by
  rw [← reachStep_reachF G hWF hu]
  unfold reachStep
  apply Finset.mem_union_right
  exact Finset.mem_biUnion.mpr
    ⟨v, hv, List.mem_toFinset.mpr ((mem_succs_iff G v w).mpr hvw)⟩

/-- One-sided completeness: anything reachable from a member of `reachF G u`
is itself a member. -/
lemma mem_reachF_of_reach (G : Digraph) (hWF : G.WF) {u v w : Nat}
    (hu : u ∈ G.nodes) (hv : v ∈ reachF G u) (hvw : G.Reach v w) :
    w ∈ reachF G u := by
  induction hvw with
  | refl => exact hv
  | tail _ hstep ih => exact reachF_closed G hWF hu ih hstep

lemma mutualReach_refl (G : Digraph) (u : Nat) : MutualReach G u u :=
  ⟨mem_reachF_self G u, mem_reachF_self G u⟩

lemma mutualReach_symm (G : Digraph) {u v : Nat} (h : MutualReach G u v) :
    MutualReach G v u := ⟨h.2, h.1⟩

lemma mutualReach_trans (G : Digraph) (hWF : G.WF) {u v w : Nat}
    (hu : u ∈ G.nodes) (hw : w ∈ G.nodes)
    (h1 : MutualReach G u v) (h2 : MutualReach G v w) : MutualReach G u w := by
  constructor
  · exact mem_reachF_of_reach G hWF hu h1.1 (reach_of_mem_reachF G h2.1)
  · exact mem_reachF_of_reach G hWF hw h2.2 (reach_of_mem_reachF G h1.2)

lemma mem_sccOf_self (G : Digraph) {v : Nat} (hv : v ∈ G.nodes) :
    v ∈ sccOf G v :=
  Finset.mem_filter.mpr ⟨List.mem_toFinset.mpr hv, mutualReach_refl G v⟩

lemma mem_sccOf_iff (G : Digraph) (v w : Nat) :
    w ∈ sccOf G v ↔ w ∈ G.nodes ∧ MutualReach G v w := by
  unfold sccOf
  simp [Finset.mem_filter, List.mem_toFinset]

lemma sccOf_congr (G : Digraph) (hWF : G.WF) {u v : Nat}
    (hu : u ∈ G.nodes) (hv : v ∈ G.nodes) (h : MutualReach G u v) :
    sccOf G u = sccOf G v := by
  unfold sccOf
  apply Finset.filter_congr
  intro w hw
  have hwn : w ∈ G.nodes := List.mem_toFinset.mp hw
  constructor
  · intro huw
    exact mutualReach_trans G hWF hv hwn (mutualReach_symm G h) (by simpa using huw)
  · intro hvw
    exact mutualReach_trans G hWF hu hwn h (by simpa using hvw)

lemma sccOf_mem_sccs (G : Digraph) {v : Nat} (hv : v ∈ G.nodes) :
    sccOf G v ∈ sccs G :=
  List.mem_dedup.mpr (List.mem_map.mpr ⟨v, hv, rfl⟩)

lemma sccs_nodup (G : Digraph) : (sccs G).Nodup := List.nodup_dedup _

/-- Any class in the SCC list containing `v` is `sccOf G v`. -/
lemma eq_sccOf_of_mem (G : Digraph) (hWF : G.WF) {c : Finset Nat} {v : Nat}
    (hc : c ∈ sccs G) (hv : v ∈ c) : c = sccOf G v := by
  rcases List.mem_map.mp (List.mem_dedup.mp hc) with ⟨w, hw, rfl⟩
  have h := (mem_sccOf_iff G w v).mp hv
  exact sccOf_congr G hWF hw h.1 h.2

lemma compId_lt_length (G : Digraph) {v : Nat} (hv : v ∈ G.nodes) :
    compId G v < (sccs G).length :=
  List.findIdx_lt_length_of_exists
    ⟨sccOf G v, sccOf_mem_sccs G hv, by simp [mem_sccOf_self G hv]⟩

lemma mem_getD_compId (G : Digraph) {v : Nat} (hv : v ∈ G.nodes) :
    v ∈ (sccs G).getD (compId G v) ∅ := by
  have hlt := compId_lt_length G hv
  have := @List.findIdx_getElem (Finset Nat) (fun c => decide (v ∈ c))
    (sccs G) hlt
  rw [List.getD_eq_getElem _ _ hlt]
  simpa using this

/-- The component label is the unique SCC-list index whose class contains
`v`. -/
lemma compId_eq_of_mem (G : Digraph) (hWF : G.WF) {v : Nat} {i : Nat}
    (hi : i < (sccs G).length) (hv : v ∈ (sccs G).getD i ∅) :
    compId G v = i := by
  have hvn : v ∈ G.nodes := by
    rw [List.getD_eq_getElem _ _ hi] at hv
    have hc : (sccs G)[i] ∈ sccs G := List.getElem_mem hi
    have := eq_sccOf_of_mem G hWF hc hv
    rw [this] at hv
    exact ((mem_sccOf_iff G v v).mp hv).1
  have hlt := compId_lt_length G hvn
  have hv' := mem_getD_compId G hvn
  rw [List.getD_eq_getElem _ _ hi] at hv
  rw [List.getD_eq_getElem _ _ hlt] at hv'
  have hci : (sccs G)[i] ∈ sccs G := List.getElem_mem hi
  have hcj : (sccs G)[compId G v] ∈ sccs G := List.getElem_mem hlt
  have heq : (sccs G)[compId G v] = (sccs G)[i] := by
    rw [eq_sccOf_of_mem G hWF hci hv, eq_sccOf_of_mem G hWF hcj hv']
  exact ((sccs_nodup G).getElem_inj_iff).mp heq

lemma sccOf_eq_getD_compId (G : Digraph) (hWF : G.WF) {v : Nat}
    (hv : v ∈ G.nodes) : (sccs G).getD (compId G v) ∅ = sccOf G v := by
  have hlt := compId_lt_length G hv
  have hv' := mem_getD_compId G hv
  rw [List.getD_eq_getElem _ _ hlt] at hv' ⊢
  exact eq_sccOf_of_mem G hWF (List.getElem_mem hlt) hv'

lemma mem_mkSolver_dagAdj (G : Digraph) (i j : Nat) :
    j ∈ (mkSolver G).dagAdj i ↔
      ∃ e ∈ G.edges, compId G e.1 = i ∧ compId G e.2 = j ∧ j ≠ i := by
  unfold mkSolver
  simp only [List.mem_dedup, List.mem_map, List.mem_filter, decide_eq_true_eq]
  constructor
  · rintro ⟨e, ⟨he, h1, h2⟩, rfl⟩
    exact ⟨e, he, h1, rfl, h2⟩
  · rintro ⟨e, he, h1, rfl, h3⟩
    exact ⟨e, ⟨he, h1, h3⟩, rfl⟩

lemma sccs_subset_nodes (G : Digraph) {c : Finset Nat} (hc : c ∈ sccs G) :
    c ⊆ G.nodes.toFinset := by
  rcases List.mem_map.mp (List.mem_dedup.mp hc) with ⟨w, _, rfl⟩
  exact Finset.filter_subset _ _

lemma list_range_map_sum (m : Nat) (f : Nat → Nat) :
    ((List.range m).map f).sum = ∑ i ∈ Finset.range m, f i := by
  induction m with
  | zero => simp
  | succ m ih => rw [List.range_succ, Finset.sum_range_succ, List.map_append]; simp [ih]

/-- Every original node lies in exactly one SCC-list index. -/
lemma filter_compId_eq_singleton (G : Digraph) (hWF : G.WF) {v : Nat}
    (hv : v ∈ G.nodes) :
    (Finset.range (sccs G).length).filter (fun i => v ∈ (sccs G).getD i ∅)
      = {compId G v} := by
  ext i
  simp only [Finset.mem_filter, Finset.mem_range, Finset.mem_singleton]
  constructor
  · rintro ⟨hi, hmem⟩
    exact (compId_eq_of_mem G hWF hi hmem).symm
  · rintro rfl
    exact ⟨compId_lt_length G hv, mem_getD_compId G hv⟩

/-- The per-supernode weights sum to the number of original vertices. -/
lemma mkSolver_weight_sum (G : Digraph) (hWF : G.WF) :
    (((mkSolver G).dagNodes).map (mkSolver G).dagWeight).sum = G.nodes.length := by
  show ((List.range (sccs G).length).map
      (fun i => ((sccs G).getD i ∅).card)).sum = G.nodes.length
  rw [list_range_map_sum]
  have hstep : ∀ i ∈ Finset.range (sccs G).length,
      ((sccs G).getD i ∅).card
        = ∑ v ∈ G.nodes.toFinset, if v ∈ (sccs G).getD i ∅ then 1 else 0 := by
    intro i hi
    have hi' : i < (sccs G).length := Finset.mem_range.mp hi
    have hsub : (sccs G).getD i ∅ ⊆ G.nodes.toFinset := by
      rw [List.getD_eq_getElem _ _ hi']
      exact sccs_subset_nodes G (List.getElem_mem hi')
    rw [Finset.sum_boole]
    congr 1
    rw [Finset.filter_mem_eq_inter]
    exact (Finset.inter_eq_right.mpr hsub).symm
  rw [Finset.sum_congr rfl hstep, Finset.sum_comm]
  have hone : ∀ v ∈ G.nodes.toFinset,
      (∑ i ∈ Finset.range (sccs G).length,
        if v ∈ (sccs G).getD i ∅ then 1 else 0) = 1 := by
    intro v hv
    rw [Finset.sum_boole, filter_compId_eq_singleton G hWF (List.mem_toFinset.mp hv)]
    simp
  rw [Finset.sum_congr rfl hone]
  simp [List.toFinset_card_of_nodup hWF.1]

/-- Along a condensation path, every member of the source SCC reaches every
member of the target SCC in the original graph. -/
lemma reach_of_dag_path (G : Digraph) (hWF : G.WF) {a b : Nat}
    (h : Relation.ReflTransGen (mkSolver G).DagEdge a b) :
    ∀ x ∈ (sccs G).getD a ∅, ∀ y ∈ (sccs G).getD b ∅, G.Reach x y := by
  induction h with
  | refl =>
      intro x hx y hy
      by_cases ha : a < (sccs G).length
      · rw [List.getD_eq_getElem _ _ ha] at hx hy
        have hc : (sccs G)[a] ∈ sccs G := List.getElem_mem ha
        have hcx := eq_sccOf_of_mem G hWF hc hx
        rw [hcx] at hy
        exact reach_of_mem_reachF G ((mem_sccOf_iff G x y).mp hy).2.1
      · rw [List.getD_eq_default _ _ (Nat.le_of_not_lt ha)] at hx
        simp at hx
  | tail hab hedge ih =>
      intro x hx y hy
      rcases (mem_mkSolver_dagAdj G _ _).mp hedge with ⟨e, he, h1, h2, _⟩
      have he1 : e.1 ∈ G.nodes := (hWF.2 e he).1
      have he2 : e.2 ∈ G.nodes := (hWF.2 e he).2
      have hx1 : G.Reach x e.1 := ih x hx e.1 (h1 ▸ mem_getD_compId G he1)
      have hx2 : G.Reach x e.2 := Relation.ReflTransGen.tail hx1 he
      have hy2 : G.Reach e.2 y := by
        have hy' : y ∈ (sccs G).getD (compId G e.2) ∅ := h2 ▸ hy
        rw [sccOf_eq_getD_compId G hWF he2] at hy'
        exact reach_of_mem_reachF G ((mem_sccOf_iff G e.2 y).mp hy').2.1
      exact hx2.trans hy2

/-- Acyclicity of the condensation DAG. -/
lemma mkSolver_acyclic (G : Digraph) (hWF : G.WF) (i : Nat) :
    ¬ Relation.TransGen (mkSolver G).DagEdge i i := by
  intro hcyc
  rcases Relation.TransGen.head'_iff.mp hcyc with ⟨j, hij, hji⟩
  rcases (mem_mkSolver_dagAdj G i j).mp hij with ⟨e, he, h1, h2, hne⟩
  have he1 : e.1 ∈ G.nodes := (hWF.2 e he).1
  have he2 : e.2 ∈ G.nodes := (hWF.2 e he).2
  have hback : G.Reach e.2 e.1 :=
    reach_of_dag_path G hWF hji e.2 (h2 ▸ mem_getD_compId G he2)
      e.1 (h1 ▸ mem_getD_compId G he1)
  have hfwd : G.Reach e.1 e.2 :=
    Relation.ReflTransGen.single he
  have hmut : MutualReach G e.1 e.2 :=
    ⟨mem_reachF_of_reach G hWF he1 (mem_reachF_self G e.1) hfwd,
     mem_reachF_of_reach G hWF he2 (mem_reachF_self G e.2) hback⟩
  have hmem : e.2 ∈ (sccs G).getD (compId G e.1) ∅ := by
    rw [sccOf_eq_getD_compId G hWF he1]
    exact (mem_sccOf_iff G e.1 e.2).mpr ⟨he2, hmut⟩
  have := compId_eq_of_mem G hWF (compId_lt_length G he1) hmem
  rw [h1, h2] at this
  exact hne this

/-- The condensation never records a self-loop. -/
lemma mkSolver_no_selfloop (G : Digraph) (i : Nat) :
    i ∉ (mkSolver G).dagAdj i := by
  intro h
  rcases (mem_mkSolver_dagAdj G i i).mp h with ⟨_, _, _, _, hne⟩
  exact hne rfl

lemma mem_ascList (c : Finset Nat) (x : Nat) : x ∈ ascList c ↔ x ∈ c := by
  unfold ascList
  simp only [List.mem_filter, List.mem_range, decide_eq_true_eq]
  constructor
  · exact fun h => h.2
  · intro h
    have hle : id x ≤ c.sup id := Finset.le_sup h
    exact ⟨Nat.lt_succ_of_le hle, h⟩

/-- Both return statements of `solve_randomized_top_down` yield `True` as the
first tuple element, whatever happened. -/
lemma solve_found_true (S : Solver) (k : Int) (m : Nat) (rand : Nat → Nat)
    (timeEx : Nat → Bool) : (solve S k m rand timeEx).found = true := by
  unfold solve
  split <;> rfl

/-!
## Determinism under fixed injected sources -/
lemma attemptLoop_congr (S : Solver) (k : Int) {r1 r2 : Nat → Nat}
    (h : ∀ i, r1 i = r2 i) :
    ∀ fuel st, attemptLoop S k r1 fuel st = attemptLoop S k r2 fuel st := by
  intro fuel
  induction fuel with
  | zero => intro st; rfl
  | succ fuel ih =>
      intro st
      simp only [attemptLoop]
      have hstep : attemptStep S r1 st = attemptStep S r2 st := by
        unfold attemptStep
        rw [h st.randIdx]
      rw [hstep]
      split_ifs with h1 h2
      · rfl
      · rfl
      · exact ih _

lemma solveLoop_congr (S : Solver) (k : Int) {r1 r2 : Nat → Nat}
    {t1 t2 : Nat → Bool} (hr : ∀ i, r1 i = r2 i) (ht : ∀ i, t1 i = t2 i) :
    ∀ fuel i st, solveLoop S k r1 t1 fuel i st = solveLoop S k r2 t2 fuel i st := by
  intro fuel
  induction fuel with
  | zero => intro i st; rfl
  | succ fuel ih =>
      intro i st
      simp only [solveLoop]
      rw [ht i]
      unfold runAttempt
      rw [attemptLoop_congr S k hr _ _]
      split_ifs <;> first | rfl | exact ih _ _

lemma solve_congr (S : Solver) (k : Int) (m : Nat) {r1 r2 : Nat → Nat}
    {t1 t2 : Nat → Bool} (hr : ∀ i, r1 i = r2 i) (ht : ∀ i, t1 i = t2 i) :
    solve S k m r1 t1 = solve S k m r2 t2 := by
  unfold solve
  split
  · rfl
  · rw [solveLoop_congr S k hr ht m 0 initSolveState]

lemma attemptLoopST_eq (k : Int) (rand : Nat → Nat) :
    ∀ fuel (S : Solver) (st : AttemptState),
      attemptLoopST k rand fuel (S, st) = (S, attemptLoop S k rand fuel st) := by
  intro fuel
  induction fuel with
  | zero => intro S st; rfl
  | succ fuel ih =>
      intro S st
      simp only [attemptLoopST, attemptLoop]
      split_ifs with h1 h2
      · rfl
      · rfl
      · exact ih _ _

lemma solveLoopST_eq (k : Int) (rand : Nat → Nat) (timeEx : Nat → Bool) :
    ∀ fuel i (S : Solver) (st : SolveState),
      solveLoopST k rand timeEx fuel i (S, st)
        = (S, solveLoop S k rand timeEx fuel i st) := by
  intro fuel
  induction fuel with
  | zero => intro i S st; rfl
  | succ fuel ih =>
      intro i S st
      simp only [solveLoopST, solveLoop, runAttempt, attemptLoopST_eq]
      split_ifs <;> first | rfl | exact ih _ _ _

/-!
## Claim theorems (first batch) -/
/-- C1: the claim (and the repository's own test `test_impossible_k`)
requires `found = false` on the spec's example graph at `k = 2`, since
`found` is to hold iff some attempt scored; but both `return` statements of
`solve_randomized_top_down` yield the literal `True` as the `found`
component, so the call at the failing input returns `found = true`. -/
theorem C1_code_returns_true_at_impossible_k :
    (solve (mkSolver exampleGraph) 2 50 (fun _ => 0) (fun _ => false)).found
      = true :=
  solve_found_true _ _ _ _ _

/-- C4: when `k` is at least the vertex count of the original graph, `solve`
returns immediately with `found = true`, the whole vertex set, zero attempts
and zero operations. -/
theorem C4_fast_path (G : Digraph) (k : Int) (m : Nat) (r : Nat → Nat)
    (t : Nat → Bool) (h : (G.nodes.length : Int) ≤ k) :
    solve (mkSolver G) k m r t =
      { found := true, closure := G.nodes.toFinset, attempts := 0,
        finalWeight := (G.nodes.length : Int), ops := 0, uniqueTested := 0 } := by
  unfold solve
  have htot : ((mkSolver G).totalWeight : Int) ≤ k := h
  rw [if_pos htot]
  rfl

theorem C4_fast_path_witness :
    ((exampleGraph.nodes.length : Int) ≤ 5) ∧
      solve (mkSolver exampleGraph) 5 50 (fun _ => 0) (fun _ => false) =
        { found := true, closure := exampleGraph.nodes.toFinset, attempts := 0,
          finalWeight := (exampleGraph.nodes.length : Int), ops := 0,
          uniqueTested := 0 } :=
  ⟨by decide, C4_fast_path exampleGraph 5 50 (fun _ => 0) (fun _ => false)
    (by decide)⟩

/-- C5: for every well-formed input graph the condensation has no self-loop
edges, is acyclic, and its per-supernode weights sum to the number of
original vertices. -/
theorem C5_condensation_invariants (G : Digraph) (hWF : G.WF) :
    (∀ i, i ∉ (mkSolver G).dagAdj i) ∧
      (∀ i, ¬ Relation.TransGen (mkSolver G).DagEdge i i) ∧
      (((mkSolver G).dagNodes).map (mkSolver G).dagWeight).sum
        = G.nodes.length :=
  ⟨mkSolver_no_selfloop G, mkSolver_acyclic G hWF, mkSolver_weight_sum G hWF⟩

theorem C5_condensation_invariants_witness :
    exampleGraph.WF ∧
      ((∀ i, i ∉ (mkSolver exampleGraph).dagAdj i) ∧
        (∀ i, ¬ Relation.TransGen (mkSolver exampleGraph).DagEdge i i) ∧
        (((mkSolver exampleGraph).dagNodes).map
          (mkSolver exampleGraph).dagWeight).sum = exampleGraph.nodes.length) :=
  ⟨by decide, C5_condensation_invariants exampleGraph (by decide)⟩

/-- C8: with the random source and the wall-clock budget oracle made
explicit inputs, two runs on the same solver and `k` fed pointwise-equal
streams return identical results (found flag, closure, and all modelled
statistics). -/
theorem C8_deterministic (S : Solver) (k : Int) (m : Nat)
    {r1 r2 : Nat → Nat} {t1 t2 : Nat → Bool}
    (hr : ∀ i, r1 i = r2 i) (ht : ∀ i, t1 i = t2 i) :
    solve S k m r1 t1 = solve S k m r2 t2 :=
  solve_congr S k m hr ht

theorem C8_deterministic_witness :
    ((∀ i : Nat, i + 0 = i) ∧ (∀ _i : Nat, false = false)) ∧
      solve (mkSolver exampleGraph) 3 50 (fun i => i + 0) (fun _ => false)
        = solve (mkSolver exampleGraph) 3 50 (fun i => i) (fun _ => false) :=
  ⟨⟨fun _ => rfl, fun _ => rfl⟩,
    C8_deterministic (mkSolver exampleGraph) 3 50 (fun _ => rfl) (fun _ => rfl)⟩

/-- C9: threading the solver object through every loop step (mirroring which
object each Python statement writes to — all assignments inside `solve` hit
attempt-local state, the in-degree table being a private `.copy()`), the
solver comes back out unchanged and the result agrees with the model that
reads the shared tables immutably. -/
theorem C9_frame (S : Solver) (k : Int) (m : Nat) (r : Nat → Nat)
    (t : Nat → Bool) : solveST S k m r t = (S, solve S k m r t) := by
  unfold solveST solve
  split
  · rfl
  · simp only [solveLoopST_eq]

/-- C6: inside one `solve` call, if the attempt executed at index `i` is
not a duplicate and ends with remaining weight exactly `k`, the retry loop
returns at once — however many retries remain, the reported attempt count is
`i + 1`, i.e. no further attempt is ever started.  (The first attempt ever
to end at weight `k` is necessarily non-duplicate: a duplicate would need an
earlier attempt with the same removed set, hence the same weight `k`.) -/
theorem C6_exact_match_stops (S : Solver) (k : Int) (rand : Nat → Nat)
    (timeEx : Nat → Bool) (n i : Nat) (st : SolveState)
    (h1 : timeEx i = false)
    (h2 : (runAttempt S k rand st.opCount st.randIdx).removedSeq.toFinset
            ∉ st.visited)
    (h3 : (runAttempt S k rand st.opCount st.randIdx).currentWeight = k) :
    (solveLoop S k rand timeEx (n + 1) i st).attemptsDone = i + 1 := by
  simp only [solveLoop, h1]
  rw [if_neg Bool.false_ne_true, if_neg h2, if_pos (le_of_eq h3), if_pos h3]
  split <;> rfl

theorem C6_exact_match_stops_witness :
    (((fun _ : Nat => false) 0 = false) ∧
      ((runAttempt (mkSolver exampleGraph) 3 (fun _ => 0)
          initSolveState.opCount initSolveState.randIdx).removedSeq.toFinset
        ∉ initSolveState.visited) ∧
      ((runAttempt (mkSolver exampleGraph) 3 (fun _ => 0)
          initSolveState.opCount initSolveState.randIdx).currentWeight = 3)) ∧
      (solveLoop (mkSolver exampleGraph) 3 (fun _ => 0) (fun _ => false)
        (49 + 1) 0 initSolveState).attemptsDone = 0 + 1 :=
  ⟨⟨rfl, by decide, by decide⟩,
    C6_exact_match_stops (mkSolver exampleGraph) 3 (fun _ => 0)
      (fun _ => false) 49 0 initSolveState rfl (by decide) (by decide)⟩

lemma verifyList_ne_some_true (G : Digraph) (c : Finset Nat) {x : Nat}
    (hxn : x ∉ G.nodes) :
    ∀ l : List Nat, x ∈ l → verifyList G c l ≠ some true := by
  intro l
  induction l with
  | nil => intro h; simp at h
  | cons u rest ih =>
      intro hx
      unfold verifyList
      by_cases hu : u ∈ G.nodes
      · rw [if_pos hu]
        have hxr : x ∈ rest := by
          rcases List.mem_cons.mp hx with rfl | h
          · exact absurd hu hxn
          · exact h
        split
        · exact ih hxr
        · simp
      · rw [if_neg hu]
        simp

/-- C10 counterexample: `verify_closure` on the candidate `{0, 99}` over the
example graph (`99` is not a vertex) returns `False` from the closure
violation at `0` (successor `1` is outside the candidate) before the missing
identifier is reached — it does not raise. -/
theorem C10_counterexample :
    (99 ∈ ({0, 99} : Finset Nat) ∧ 99 ∉ exampleGraph.nodes ∧
        ({0, 99} : Finset Nat) ≠ (∅ : Finset Nat)) ∧
      verify_closure exampleGraph {0, 99} = some false := by
  constructor
  · refine ⟨by decide, by decide, by decide⟩
  · decide

/-- C10 (amended): `verify_closure` returns true for the empty candidate
without touching the graph; a non-empty candidate containing an identifier
that is not a graph vertex never verifies — the call either raises (when the
missing identifier is enumerated first, as for a candidate whose valid
members have no outside successors) or returns false from an earlier closure
violation. -/
theorem C10_missing_vertex_never_true (G : Digraph) (c : Finset Nat)
    (x : Nat) (hx : x ∈ c) (hxn : x ∉ G.nodes) :
    verify_closure G (∅ : Finset Nat) = some true ∧
      verify_closure G c ≠ some true := by
  refine ⟨rfl, ?_⟩
  unfold verify_closure
  rw [if_neg (Finset.ne_empty_of_mem hx)]
  exact verifyList_ne_some_true G c hxn _ ((mem_ascList c x).mpr hx)

theorem C10_missing_vertex_never_true_witness :
    (99 ∈ ({99} : Finset Nat) ∧ 99 ∉ exampleGraph.nodes) ∧
      (verify_closure exampleGraph (∅ : Finset Nat) = some true ∧
        verify_closure exampleGraph {99} ≠ some true) :=
  ⟨⟨by decide, by decide⟩,
    C10_missing_vertex_never_true exampleGraph {99} 99 (by decide) (by decide)⟩

/-!
## Invariants of the reduction loop -/
lemma swapRemove_perm (l : List Nat) (i : Nat) (hi : i < l.length) :
    List.Perm (l.get ⟨i, hi⟩ :: (l.set i (l.getLast?.getD 0)).dropLast) l := by
  have hne : l ≠ [] := List.ne_nil_of_length_pos (Nat.lt_of_le_of_lt (Nat.zero_le i) hi)
  have hb : l.getLast?.getD 0 = l.getLast hne := by
    rw [List.getLast?_eq_getLast l hne]
    rfl
  set b := l.getLast hne with hbdef
  rw [hb]
  have hlen : (l.set i b).length = l.length := List.length_set l i b
  have hsetne : l.set i b ≠ [] := by
    intro hcon
    have h0 := congrArg List.length hcon
    rw [hlen] at h0
    simp at h0
    exact hne h0
  have hlast : (l.set i b).getLast hsetne = b := by
    rw [List.getLast_eq_getElem]
    rw [List.getElem_set]
    split
    · rfl
    · have hidx : (l.set i b).length - 1 = l.length - 1 := by rw [hlen]
      rw [getElem_congr hidx]
      exact (List.getLast_eq_getElem l hne).symm
  have hconcat : (l.set i b).dropLast ++ [b] = l.set i b := by
    have := List.dropLast_concat_getLast hsetne
    rw [hlast] at this
    exact this
  have hsplit : l.set i b = l.take i ++ b :: l.drop (i + 1) :=
    List.set_eq_take_cons_drop b hi
  have hl : l = l.take i ++ l.get ⟨i, hi⟩ :: l.drop (i + 1) := by
    conv_lhs => rw [← List.take_append_drop i l]
    rw [List.drop_eq_getElem_cons hi]
    rfl
  have h1 : List.Perm ((l.set i b).dropLast ++ [b])
      (b :: (l.take i ++ l.drop (i + 1))) := by
    rw [hconcat, hsplit]
    exact List.perm_middle
  have h2 : List.Perm ((l.set i b).dropLast ++ [b]) (b :: (l.set i b).dropLast) :=
    List.perm_append_singleton b _
  have h3 : List.Perm ((l.set i b).dropLast) (l.take i ++ l.drop (i + 1)) :=
    (h2.symm.trans h1).cons_inv
  have h5 : List.Perm (l.get ⟨i, hi⟩ :: (l.take i ++ l.drop (i + 1))) l := by
    conv_rhs => rw [hl]
    exact List.perm_middle.symm
  exact (h3.cons _).trans h5

lemma swapRemove_nodup (l : List Nat) (hnd : l.Nodup) (i : Nat)
    (hi : i < l.length) :
    ((l.set i (l.getLast?.getD 0)).dropLast).Nodup ∧
      l.get ⟨i, hi⟩ ∉ (l.set i (l.getLast?.getD 0)).dropLast := by
  have hperm := swapRemove_perm l i hi
  have : (l.get ⟨i, hi⟩ :: (l.set i (l.getLast?.getD 0)).dropLast).Nodup :=
    hperm.nodup_iff.mpr hnd
  exact ⟨(List.nodup_cons.mp this).2, (List.nodup_cons.mp this).1⟩

lemma swapRemove_mem_iff (l : List Nat) (hnd : l.Nodup) (i : Nat)
    (hi : i < l.length) (x : Nat) :
    x ∈ (l.set i (l.getLast?.getD 0)).dropLast
      ↔ x ∈ l ∧ x ≠ l.get ⟨i, hi⟩ := by
  have hperm := swapRemove_perm l i hi
  have hnotin := (swapRemove_nodup l hnd i hi).2
  constructor
  · intro hx
    refine ⟨hperm.mem_iff.mp (List.mem_cons_of_mem _ hx), ?_⟩
    rintro rfl
    exact hnotin hx
  · rintro ⟨hx, hne⟩
    rcases List.mem_cons.mp (hperm.mem_iff.mpr hx) with h | h
    · exact absurd h hne
    · exact h

/-- Characterisation of the inner successor-processing loop: each present
successor's in-degree drops by one (adjacency lists are duplicate-free), and
the frontier gains exactly the present successors whose in-degree reaches
zero. -/
lemma processSuccs_spec (current : Finset Nat) :
    ∀ (l : List Nat) (deg : Nat → Int) (srcs : List Nat) (ops : Nat),
      l.Nodup → srcs.Nodup → (∀ x ∈ srcs, deg x = 0) →
      (∀ y ∈ l, y ∈ current → 1 ≤ deg y) →
      (∀ v, (processSuccs current l deg srcs ops).1 v
          = if v ∈ l ∧ v ∈ current then deg v - 1 else deg v) ∧
      (∀ x, x ∈ (processSuccs current l deg srcs ops).2.1
          ↔ x ∈ srcs ∨ (x ∈ l ∧ x ∈ current ∧ deg x = 1)) ∧
      (processSuccs current l deg srcs ops).2.1.Nodup := by
  intro l
  induction l with
  | nil =>
      intro deg srcs ops _ hsnd _ _
      refine ⟨fun v => by simp [processSuccs], fun x => by simp [processSuccs], ?_⟩
      simpa [processSuccs] using hsnd
  | cons v rest ih =>
      intro deg srcs ops hnd hsnd hs0 hpos
      have hvrest : v ∉ rest := (List.nodup_cons.mp hnd).1
      have hrestnd : rest.Nodup := (List.nodup_cons.mp hnd).2
      by_cases hvc : v ∈ current
      · have hvs : v ∉ srcs := by
          intro hcon
          have h0 := hs0 v hcon
          have h1 := hpos v (List.mem_cons_self v rest) hvc
          omega
        have hpos' : ∀ y ∈ rest, y ∈ current →
            1 ≤ Function.update deg v (deg v - 1) y := by
          intro y hy hyc
          have hyv : y ≠ v := fun hh => hvrest (hh ▸ hy)
          rw [Function.update_noteq hyv]
          exact hpos y (List.mem_cons_of_mem v hy) hyc
        by_cases hdeg : deg v - 1 = 0
        · -- the successor's in-degree reaches zero: it is pushed
          have hsnd' : (srcs ++ [v]).Nodup := by
            rw [List.nodup_append]
            exact ⟨hsnd, List.nodup_singleton v, by
              intro a ha hb
              simp at hb
              subst hb
              exact hvs ha⟩
          have hs0' : ∀ x ∈ srcs ++ [v],
              Function.update deg v (deg v - 1) x = 0 := by
            intro x hx
            rcases List.mem_append.mp hx with hx | hx
            · have hxv : x ≠ v := fun hh => hvs (hh ▸ hx)
              rw [Function.update_noteq hxv]
              exact hs0 x hx
            · simp at hx
              subst hx
              rw [Function.update_same]
              exact hdeg
          have heval : processSuccs current (v :: rest) deg srcs ops
              = processSuccs current rest (Function.update deg v (deg v - 1))
                  (srcs ++ [v]) (ops + 1) := by
            simp only [processSuccs]
            rw [if_pos hvc]
            simp only [Function.update_same]
            rw [if_pos hdeg]
          rcases ih (Function.update deg v (deg v - 1)) (srcs ++ [v]) (ops + 1)
            hrestnd hsnd' hs0' hpos' with ⟨ha, hb, hc⟩
          refine ⟨?_, ?_, by rw [heval]; exact hc⟩
          · intro w
            rw [heval, ha w]
            by_cases hwv : w = v
            · subst hwv
              rw [if_neg (fun hcon => hvrest hcon.1), Function.update_same,
                if_pos ⟨List.mem_cons_self w rest, hvc⟩]
            · rw [Function.update_noteq hwv]
              by_cases hw : w ∈ rest ∧ w ∈ current
              · rw [if_pos hw, if_pos ⟨List.mem_cons_of_mem v hw.1, hw.2⟩]
              · rw [if_neg hw, if_neg (fun hcon => hw
                  ⟨(List.mem_cons.mp hcon.1).resolve_left hwv, hcon.2⟩)]
          · intro x
            rw [heval, hb x]
            by_cases hxv : x = v
            · subst hxv
              have hdv : deg x = 1 := by omega
              constructor
              · intro _
                exact Or.inr ⟨List.mem_cons_self x rest, hvc, hdv⟩
              · intro _
                exact Or.inl (List.mem_append.mpr
                  (Or.inr (List.mem_singleton.mpr rfl)))
            · rw [Function.update_noteq hxv]
              constructor
              · rintro (h | ⟨h1, h2, h3⟩)
                · rcases List.mem_append.mp h with h | h
                  · exact Or.inl h
                  · exact absurd (List.mem_singleton.mp h) hxv
                · exact Or.inr ⟨List.mem_cons_of_mem v h1, h2, h3⟩
              · rintro (h | ⟨h1, h2, h3⟩)
                · exact Or.inl (List.mem_append.mpr (Or.inl h))
                · exact Or.inr ⟨(List.mem_cons.mp h1).resolve_left hxv, h2, h3⟩
        · -- present successor, in-degree still positive
          have hs0' : ∀ x ∈ srcs, Function.update deg v (deg v - 1) x = 0 := by
            intro x hx
            have hxv : x ≠ v := fun hh => hvs (hh ▸ hx)
            rw [Function.update_noteq hxv]
            exact hs0 x hx
          have heval : processSuccs current (v :: rest) deg srcs ops
              = processSuccs current rest (Function.update deg v (deg v - 1))
                  srcs (ops + 1) := by
            simp only [processSuccs]
            rw [if_pos hvc]
            simp only [Function.update_same]
            rw [if_neg hdeg]
          rcases ih (Function.update deg v (deg v - 1)) srcs (ops + 1)
            hrestnd hsnd hs0' hpos' with ⟨ha, hb, hc⟩
          refine ⟨?_, ?_, by rw [heval]; exact hc⟩
          · intro w
            rw [heval, ha w]
            by_cases hwv : w = v
            · subst hwv
              rw [if_neg (fun hcon => hvrest hcon.1), Function.update_same,
                if_pos ⟨List.mem_cons_self w rest, hvc⟩]
            · rw [Function.update_noteq hwv]
              by_cases hw : w ∈ rest ∧ w ∈ current
              · rw [if_pos hw, if_pos ⟨List.mem_cons_of_mem v hw.1, hw.2⟩]
              · rw [if_neg hw, if_neg (fun hcon => hw
                  ⟨(List.mem_cons.mp hcon.1).resolve_left hwv, hcon.2⟩)]
          · intro x
            rw [heval, hb x]
            by_cases hxv : x = v
            · subst hxv
              constructor
              · rintro (h | ⟨h1, _, _⟩)
                · exact Or.inl h
                · exact absurd h1 hvrest
              · rintro (h | ⟨_, _, h3⟩)
                · exact Or.inl h
                · exact absurd h3 (by omega)
            · rw [Function.update_noteq hxv]
              constructor
              · rintro (h | ⟨h1, h2, h3⟩)
                · exact Or.inl h
                · exact Or.inr ⟨List.mem_cons_of_mem v h1, h2, h3⟩
              · rintro (h | ⟨h1, h2, h3⟩)
                · exact Or.inl h
                · exact Or.inr ⟨(List.mem_cons.mp h1).resolve_left hxv, h2, h3⟩
      · -- successor already removed: only the op counter moves
        have heval : processSuccs current (v :: rest) deg srcs ops
            = processSuccs current rest deg srcs (ops + 1) := by
          simp only [processSuccs]
          rw [if_neg hvc]
        have hpos' : ∀ y ∈ rest, y ∈ current → 1 ≤ deg y :=
          fun y hy hyc => hpos y (List.mem_cons_of_mem v hy) hyc
        rcases ih deg srcs (ops + 1) hrestnd hsnd hs0 hpos' with ⟨ha, hb, hc⟩
        refine ⟨?_, ?_, by rw [heval]; exact hc⟩
        · intro w
          rw [heval, ha w]
          by_cases hw : w ∈ rest ∧ w ∈ current
          · rw [if_pos hw, if_pos ⟨List.mem_cons_of_mem v hw.1, hw.2⟩]
          · rw [if_neg hw]
            by_cases hwv : w = v
            · subst hwv
              rw [if_neg (fun hcon => hvc hcon.2)]
            · rw [if_neg (fun hcon => hw
                ⟨(List.mem_cons.mp hcon.1).resolve_left hwv, hcon.2⟩)]
        · intro x
          rw [heval, hb x]
          constructor
          · rintro (h | ⟨h1, h2, h3⟩)
            · exact Or.inl h
            · exact Or.inr ⟨List.mem_cons_of_mem v h1, h2, h3⟩
          · rintro (h | ⟨h1, h2, h3⟩)
            · exact Or.inl h
            · rcases List.mem_cons.mp h1 with rfl | h1
              · exact absurd h2 hvc
              · exact Or.inr ⟨h1, h2, h3⟩

lemma initAttempt_inv (S : Solver) (hWF : SolverWF S) (ops ridx : Nat) :
    AttemptInv S (initAttempt S ops ridx) := by
  refine ⟨Finset.Subset.refl _, ?_, ?_, ?_, ?_, ?_, ?_, ?_⟩
  · intro v
    show (S.dagInitialInDegree v : Int) = _
    congr 1
    unfold Solver.dagInitialInDegree
    rw [List.count_flatten, List.map_map]
    have hmap : (S.dagNodes.map (fun u => (S.dagAdj u).count v)).sum
        = (S.dagNodes.map (fun u => if v ∈ S.dagAdj u then 1 else 0)).sum := by
      congr 1
      apply List.map_congr_left
      intro u _
      by_cases hv : v ∈ S.dagAdj u
      · rw [if_pos hv]
        exact List.count_eq_one_of_mem (hWF.adjNodup u) hv
      · rw [if_neg hv]
        exact List.count_eq_zero_of_not_mem hv
    rw [show (List.count v ∘ S.dagAdj) = fun u => (S.dagAdj u).count v from rfl,
      hmap, ← List.sum_toFinset _ hWF.nodesNodup, Finset.sum_boole]
    rfl
  · intro u hu j hj
    exact List.mem_toFinset.mpr
      (hWF.adjClosed u (List.mem_toFinset.mp hu) j hj)
  · exact List.Nodup.filter _ hWF.nodesNodup
  · intro x hx
    exact List.mem_toFinset.mpr (List.mem_of_mem_filter hx)
  · intro x hx
    have := List.of_mem_filter hx
    simp only [beq_iff_eq] at this
    show (S.dagInitialInDegree x : Int) = 0
    rw [this]
    rfl
  · intro x hx hdeg
    have hdeg2 : (S.dagInitialInDegree x : Int) = 0 := hdeg
    have hdeg' : S.dagInitialInDegree x = 0 := by exact_mod_cast hdeg2
    exact List.mem_filter.mpr ⟨List.mem_toFinset.mp hx, by simp [hdeg']⟩
  · show (S.totalWeight : Int) = _
    exact hWF.weightSum

lemma attemptStep_inv (S : Solver) (hWF : SolverWF S) (rand : Nat → Nat)
    (st : AttemptState) (inv : AttemptInv S st) (hne : st.sources ≠ []) :
    AttemptInv S (attemptStep S rand st) := by
  have hlen : 0 < st.sources.length := List.length_pos.mpr hne
  have hidxlt : rand st.randIdx % st.sources.length < st.sources.length :=
    Nat.mod_lt _ hlen
  set idx := rand st.randIdx % st.sources.length with hidxdef
  set s := st.sources.getD idx 0 with hsdef
  have hs_get : s = st.sources.get ⟨idx, hidxlt⟩ := by
    rw [hsdef, List.getD_eq_getElem?_getD, List.getElem?_eq_getElem hidxlt]
    rfl
  have hs_src : s ∈ st.sources := by
    rw [hs_get]
    exact List.get_mem _ _ _
  have hs_cur : s ∈ st.currentNodes := inv.srcMem s hs_src
  have hs_deg : st.inDegree s = 0 := inv.srcZero s hs_src
  have hfilter_empty :
      st.currentNodes.filter (fun u => s ∈ S.dagAdj u) = ∅ := by
    have h0 := inv.degCount s
    rw [hs_deg] at h0
    have : (st.currentNodes.filter (fun u => s ∈ S.dagAdj u)).card = 0 := by
      exact_mod_cast h0.symm
    exact Finset.card_eq_zero.mp this
  have hs_nopred : ∀ u ∈ st.currentNodes, s ∉ S.dagAdj u := by
    intro u hu hadj
    have : u ∈ st.currentNodes.filter (fun u => s ∈ S.dagAdj u) :=
      Finset.mem_filter.mpr ⟨hu, hadj⟩
    rw [hfilter_empty] at this
    simp at this
  set sources1 := (st.sources.set idx (st.sources.getLast?.getD 0)).dropLast
    with hs1def
  have hsrc1_mem : ∀ x, x ∈ sources1 ↔ x ∈ st.sources ∧ x ≠ s := by
    intro x
    rw [hs1def, hs_get]
    exact swapRemove_mem_iff st.sources inv.srcNodup idx hidxlt x
  have hsrc1_nodup : sources1.Nodup :=
    (swapRemove_nodup st.sources inv.srcNodup idx hidxlt).1
  have hsrc1_zero : ∀ x ∈ sources1, st.inDegree x = 0 :=
    fun x hx => inv.srcZero x ((hsrc1_mem x).mp hx).1
  have hpos : ∀ y ∈ S.dagAdj s, y ∈ st.currentNodes.erase s →
      1 ≤ st.inDegree y := by
    intro y hy _
    rw [inv.degCount y]
    have : 0 < (st.currentNodes.filter (fun u => y ∈ S.dagAdj u)).card :=
      Finset.card_pos.mpr ⟨s, Finset.mem_filter.mpr ⟨hs_cur, hy⟩⟩
    exact_mod_cast this
  rcases processSuccs_spec (st.currentNodes.erase s) (S.dagAdj s) st.inDegree
    sources1 (st.opCount + 1) (hWF.adjNodup s) hsrc1_nodup hsrc1_zero hpos
    with ⟨hdeg', hmem', hnd'⟩
  set pr := processSuccs (st.currentNodes.erase s) (S.dagAdj s) st.inDegree
    sources1 (st.opCount + 1) with hprdef
  refine ⟨?_, ?_, ?_, ?_, ?_, ?_, ?_, ?_⟩
  · show st.currentNodes.erase s ⊆ _
    exact (Finset.erase_subset s st.currentNodes).trans inv.subNodes
  · show ∀ v, pr.1 v = (((st.currentNodes.erase s).filter
      (fun u => v ∈ S.dagAdj u)).card : Int)
    intro v
    rw [hdeg' v]
    by_cases hcase : v ∈ S.dagAdj s ∧ v ∈ st.currentNodes.erase s
    · have hsin : s ∈ st.currentNodes.filter (fun u => v ∈ S.dagAdj u) :=
        Finset.mem_filter.mpr ⟨hs_cur, hcase.1⟩
      rw [if_pos hcase, inv.degCount v, Finset.filter_erase,
        Finset.card_erase_of_mem hsin]
      have hcard : 0 < (st.currentNodes.filter (fun u => v ∈ S.dagAdj u)).card :=
        Finset.card_pos.mpr ⟨s, hsin⟩
      omega
    · rw [if_neg hcase, inv.degCount v, Finset.filter_erase]
      have hvs : v ∉ S.dagAdj s := by
        intro hv
        apply hcase
        refine ⟨hv, Finset.mem_erase.mpr ⟨?_, inv.closedDag s hs_cur v hv⟩⟩
        rintro rfl
        exact hWF.noSelfLoop s hv
      have hsnot : s ∉ st.currentNodes.filter (fun u => v ∈ S.dagAdj u) :=
        fun hcon => hvs (Finset.mem_filter.mp hcon).2
      rw [Finset.erase_eq_of_not_mem hsnot]
  · show ∀ u ∈ st.currentNodes.erase s, ∀ j ∈ S.dagAdj u, _
    intro u hu j hj
    have hu' : u ∈ st.currentNodes := Finset.mem_of_mem_erase hu
    have hj' : j ∈ st.currentNodes := inv.closedDag u hu' j hj
    refine Finset.mem_erase.mpr ⟨?_, hj'⟩
    rintro rfl
    exact hs_nopred u hu' hj
  · exact hnd'
  · show ∀ x ∈ pr.2.1, x ∈ st.currentNodes.erase s
    intro x hx
    rcases (hmem' x).mp hx with hx1 | hx2
    · rcases (hsrc1_mem x).mp hx1 with ⟨hxs, hxne⟩
      exact Finset.mem_erase.mpr ⟨hxne, inv.srcMem x hxs⟩
    · exact hx2.2.1
  · show ∀ x ∈ pr.2.1, pr.1 x = 0
    intro x hx
    rw [hdeg' x]
    rcases (hmem' x).mp hx with hx1 | hx2
    · have hx0 : st.inDegree x = 0 := hsrc1_zero x hx1
      have hnot : ¬ (x ∈ S.dagAdj s ∧ x ∈ st.currentNodes.erase s) := by
        rintro ⟨hxa, hxe⟩
        have := hpos x hxa hxe
        omega
      rw [if_neg hnot]
      exact hx0
    · rw [if_pos ⟨hx2.1, hx2.2.1⟩, hx2.2.2]
      ring
  · show ∀ x ∈ st.currentNodes.erase s, pr.1 x = 0 → x ∈ pr.2.1
    intro x hx hx0
    rw [hdeg' x] at hx0
    by_cases hcase : x ∈ S.dagAdj s ∧ x ∈ st.currentNodes.erase s
    · rw [if_pos hcase] at hx0
      exact (hmem' x).mpr (Or.inr ⟨hcase.1, hcase.2, by omega⟩)
    · rw [if_neg hcase] at hx0
      have hxs : x ∈ st.sources :=
        inv.zeroSrc x (Finset.mem_of_mem_erase hx) hx0
      exact (hmem' x).mpr
        (Or.inl ((hsrc1_mem x).mpr ⟨hxs, (Finset.mem_erase.mp hx).1⟩))
  · show st.currentWeight - (S.dagWeight s : Int)
      = ∑ u ∈ st.currentNodes.erase s, (S.dagWeight u : Int)
    rw [inv.weightEq,
      ← Finset.sum_erase_add _ _ hs_cur]
    ring

lemma attemptLoop_inv (S : Solver) (hWF : SolverWF S) (k : Int)
    (rand : Nat → Nat) :
    ∀ fuel st, AttemptInv S st → AttemptInv S (attemptLoop S k rand fuel st) := by
  intro fuel
  induction fuel with
  | zero => intro st inv; exact inv
  | succ fuel ih =>
      intro st inv
      simp only [attemptLoop]
      split_ifs with h1 h2
      · exact inv
      · exact inv
      · refine ih _ (attemptStep_inv S hWF rand st inv ?_)
        intro hcon
        exact h2 (by simp [hcon])

lemma list_range_toFinset (m : Nat) :
    (List.range m).toFinset = Finset.range m := by
  ext x
  simp [List.mem_range, Finset.mem_range]

/-- The solver built by `mkSolver` satisfies all precomputed-state
invariants. -/
lemma mkSolver_solverWF (G : Digraph) (hG : G.WF) : SolverWF (mkSolver G) := by
  refine ⟨List.nodup_range _, ?_, mkSolver_no_selfloop G, ?_,
    mkSolver_acyclic G hG, ?_⟩
  · intro i
    exact List.nodup_dedup _
  · intro i _ j hj
    rcases (mem_mkSolver_dagAdj G i j).mp hj with ⟨e, he, _, hj2, _⟩
    show j ∈ List.range (sccs G).length
    rw [List.mem_range, ← hj2]
    exact compId_lt_length G (hG.2 e he).2
  · show ((G.nodes.length : Int)) = _
    have h1 := mkSolver_weight_sum G hG
    show (G.nodes.length : Int)
      = ∑ u ∈ (List.range (sccs G).length).toFinset, ((mkSolver G).dagWeight u : Int)
    rw [list_range_toFinset, ← Nat.cast_sum]
    rw [← h1]
    show ((((mkSolver G).dagNodes).map (mkSolver G).dagWeight).sum : Int) = _
    rw [show (mkSolver G).dagNodes = List.range (sccs G).length from rfl,
      list_range_map_sum]

lemma runAttempt_inv (S : Solver) (hWF : SolverWF S) (k : Int)
    (rand : Nat → Nat) (ops ridx : Nat) :
    AttemptInv S (runAttempt S k rand ops ridx) :=
  attemptLoop_inv S hWF k rand (S.dagNodes.length + 1) _
    (initAttempt_inv S hWF ops ridx)

lemma runAttempt_closed (S : Solver) (hWF : SolverWF S) (k : Int)
    (rand : Nat → Nat) (ops ridx : Nat) :
    ClosedDagSet S (runAttempt S k rand ops ridx).currentNodes :=
  ⟨(runAttempt_inv S hWF k rand ops ridx).subNodes,
   (runAttempt_inv S hWF k rand ops ridx).closedDag⟩

/-- Whatever best closure the retry loop records is a DAG-closed supernode
set. -/
lemma solveLoop_bestClosure_closed (S : Solver) (hWF : SolverWF S) (k : Int)
    (rand : Nat → Nat) (timeEx : Nat → Bool) :
    ∀ fuel i st,
      (∀ B, st.bestClosure = some B → ClosedDagSet S B) →
      ∀ B, (solveLoop S k rand timeEx fuel i st).bestClosure = some B →
        ClosedDagSet S B := by
  intro fuel
  induction fuel with
  | zero => intro i st hst B hB; exact hst B hB
  | succ fuel ih =>
      intro i st hst B hB
      simp only [solveLoop] at hB
      by_cases h1 : timeEx i = true
      · rw [if_pos h1] at hB
        exact hst B hB
      · rw [if_neg h1] at hB
        set res := runAttempt S k rand st.opCount st.randIdx with hres
        by_cases h2 : res.removedSeq.toFinset ∈ st.visited
        · rw [if_pos h2] at hB
          refine ih _ _ ?_ B hB
          intro B' hB'
          exact hst B' hB'
        · rw [if_neg h2] at hB
          by_cases h3 : res.currentWeight ≤ k
          · rw [if_pos h3] at hB
            by_cases h5 : st.bestWeight < res.currentWeight
            · rw [if_pos h5] at hB
              by_cases h4 : res.currentWeight = k
              · rw [if_pos h4] at hB
                have : some res.currentNodes = some B := hB
                rw [Option.some_inj] at this
                rw [← this, hres]
                exact runAttempt_closed S hWF k rand st.opCount st.randIdx
              · rw [if_neg h4] at hB
                refine ih _ _ ?_ B hB
                intro B' hB'
                have : some res.currentNodes = some B' := hB'
                rw [Option.some_inj] at this
                rw [← this, hres]
                exact runAttempt_closed S hWF k rand st.opCount st.randIdx
            · rw [if_neg h5] at hB
              by_cases h4 : res.currentWeight = k
              · rw [if_pos h4] at hB
                exact hst B hB
              · rw [if_neg h4] at hB
                refine ih _ _ ?_ B hB
                intro B' hB'
                exact hst B' hB'
          · rw [if_neg h3] at hB
            refine ih _ _ ?_ B hB
            intro B' hB'
            exact hst B' hB'

/-- A candidate set whose members are nodes and which is closed under
original-graph successors passes `verify_closure`. -/
lemma verify_closure_of_closed (G : Digraph) (c : Finset Nat)
    (hmem : ∀ u ∈ c, u ∈ G.nodes)
    (hcl : ∀ u ∈ c, ∀ v ∈ G.succs u, v ∈ c) :
    verify_closure G c = some true := by
  unfold verify_closure
  split
  · rfl
  · have hgen : ∀ l : List Nat, (∀ u ∈ l, u ∈ c) → verifyList G c l = some true := by
      intro l
      induction l with
      | nil => intro _; rfl
      | cons u rest ih =>
          intro hl
          have hu : u ∈ c := hl u (List.mem_cons_self u rest)
          unfold verifyList
          rw [if_pos (hmem u hu)]
          have hall : (G.succs u).all (fun v => decide (v ∈ c)) = true := by
            rw [List.all_eq_true]
            intro v hv
            exact decide_eq_true (hcl u hu v hv)
          rw [if_pos hall]
          exact ih (fun x hx => hl x (List.mem_cons_of_mem u hx))
    exact hgen _ (fun u hu => (mem_ascList c u).mp hu)

/-- Expanding a DAG-closed supernode set through the SCC-members map yields
a vertex set that is successor-closed in the original graph. -/
lemma expansion_closed (G : Digraph) (hG : G.WF) (B : Finset Nat)
    (hB : ClosedDagSet (mkSolver G) B) :
    (∀ u ∈ B.biUnion (mkSolver G).sccMapping, u ∈ G.nodes) ∧
      (∀ u ∈ B.biUnion (mkSolver G).sccMapping, ∀ v ∈ G.succs u,
        v ∈ B.biUnion (mkSolver G).sccMapping) := by
  have hBlt : ∀ i ∈ B, i < (sccs G).length := by
    intro i hi
    have h0 := hB.1 hi
    have h1 : i ∈ List.range (sccs G).length := List.mem_toFinset.mp h0
    exact List.mem_range.mp h1
  have hmemnodes : ∀ u ∈ B.biUnion (mkSolver G).sccMapping, u ∈ G.nodes := by
    intro u hu
    rcases Finset.mem_biUnion.mp hu with ⟨i, hi, hui⟩
    have hilt := hBlt i hi
    have hui' : u ∈ (sccs G).getD i ∅ := hui
    rw [List.getD_eq_getElem _ _ hilt] at hui'
    exact List.mem_toFinset.mp
      (sccs_subset_nodes G (List.getElem_mem hilt) hui')
  refine ⟨hmemnodes, ?_⟩
  intro u hu v hv
  rcases Finset.mem_biUnion.mp hu with ⟨i, hi, hui⟩
  have hui' : u ∈ (sccs G).getD i ∅ := hui
  have hilt := hBlt i hi
  have hedge : (u, v) ∈ G.edges := (mem_succs_iff G u v).mp hv
  have hun : u ∈ G.nodes := hmemnodes u hu
  have hvn : v ∈ G.nodes := (hG.2 _ hedge).2
  have hcompu : compId G u = i := compId_eq_of_mem G hG hilt hui'
  by_cases hij : compId G v = i
  · refine Finset.mem_biUnion.mpr ⟨i, hi, ?_⟩
    show v ∈ (sccs G).getD i ∅
    rw [← hij]
    exact mem_getD_compId G hvn
  · have hadj : compId G v ∈ (mkSolver G).dagAdj i :=
      (mem_mkSolver_dagAdj G i (compId G v)).mpr
        ⟨(u, v), hedge, hcompu, rfl, hij⟩
    refine Finset.mem_biUnion.mpr ⟨compId G v, hB.2 i hi _ hadj, ?_⟩
    show v ∈ (sccs G).getD (compId G v) ∅
    exact mem_getD_compId G hvn

/-- C3: for every well-formed graph and every solve call whose result is
flagged successful, the returned vertex set passes `verify_closure` on the
original graph — whatever the random draws: the reduction only removes
zero-remaining-in-degree supernodes, so the kept supernode set stays
successor-closed and so does its expansion through the SCC-members map. -/
theorem C3_returned_set_is_closure (G : Digraph) (hG : G.WF) (k : Int)
    (m : Nat) (r : Nat → Nat) (t : Nat → Bool)
    (_hfound : (solve (mkSolver G) k m r t).found = true) :
    verify_closure G (solve (mkSolver G) k m r t).closure = some true := by
  clear _hfound
  by_cases hfast : ((mkSolver G).totalWeight : Int) ≤ k
  · have heq : (solve (mkSolver G) k m r t).closure = G.nodes.toFinset := by
      unfold solve
      rw [if_pos hfast]
      rfl
    rw [heq]
    apply verify_closure_of_closed
    · intro u hu
      exact List.mem_toFinset.mp hu
    · intro u _ v hv
      exact List.mem_toFinset.mpr (hG.2 _ ((mem_succs_iff G u v).mp hv)).2
  · have heq : (solve (mkSolver G) k m r t).closure
        = match (solveLoop (mkSolver G) k r t m 0 initSolveState).bestClosure with
          | some c => c.biUnion (mkSolver G).sccMapping
          | none => (∅ : Finset Nat) := by
      unfold solve
      rw [if_neg hfast]
    rw [heq]
    rcases hbc : (solveLoop (mkSolver G) k r t m 0 initSolveState).bestClosure
      with _ | B
    · rfl
    · have hclosed : ClosedDagSet (mkSolver G) B :=
        solveLoop_bestClosure_closed (mkSolver G) (mkSolver_solverWF G hG)
          k r t m 0 initSolveState (fun B' hB' => by simp [initSolveState] at hB')
          B hbc
      rcases expansion_closed G hG B hclosed with ⟨hm, hc⟩
      exact verify_closure_of_closed G _ hm hc

theorem C3_returned_set_is_closure_witness :
    (exampleGraph.WF ∧
      (solve (mkSolver exampleGraph) 3 50 (fun _ => 0) (fun _ => false)).found
        = true) ∧
      verify_closure exampleGraph
        (solve (mkSolver exampleGraph) 3 50 (fun _ => 0) (fun _ => false)).closure
        = some true :=
  ⟨⟨by decide, solve_found_true _ _ _ _ _⟩,
    C3_returned_set_is_closure exampleGraph (by decide) 3 50 (fun _ => 0)
      (fun _ => false) (solve_found_true _ _ _ _ _)⟩

/-!
## Every attempt scores when `k ≥ 0`

On the acyclic condensation a nonempty remaining set always has a
zero-in-degree member, so the frontier only empties when everything has been
removed and the remaining weight is `0 ≤ k`. -/
lemma exists_source (S : Solver) (hWF : SolverWF S) (c : Finset Nat)
    (hne : c.Nonempty) : ∃ x ∈ c, ∀ u ∈ c, x ∉ S.dagAdj u := by
  classical
  let r : {y // y ∈ c} → {y // y ∈ c} → Prop :=
    fun a b => Relation.TransGen S.DagEdge a.1 b.1
  haveI : IsTrans {y // y ∈ c} r := ⟨fun _ _ _ hab hbc => hab.trans hbc⟩
  haveI : IsIrrefl {y // y ∈ c} r := ⟨fun a ha => hWF.acyclic a.1 ha⟩
  have hwf : WellFounded r := Finite.wellFounded_of_trans_of_irrefl r
  rcases hne with ⟨x0, hx0⟩
  rcases hwf.has_min Set.univ ⟨⟨x0, hx0⟩, trivial⟩ with ⟨mx, _, hmin⟩
  refine ⟨mx.1, mx.2, ?_⟩
  intro u hu hadj
  exact hmin ⟨u, hu⟩ trivial (Relation.TransGen.single hadj)

lemma attemptStep_card_lt (S : Solver) (rand : Nat → Nat) (st : AttemptState)
    (inv : AttemptInv S st) (hne : st.sources ≠ []) :
    (attemptStep S rand st).currentNodes.card < st.currentNodes.card := by
  have hlen : 0 < st.sources.length := List.length_pos.mpr hne
  have hidxlt : rand st.randIdx % st.sources.length < st.sources.length :=
    Nat.mod_lt _ hlen
  have hs_get : st.sources.getD (rand st.randIdx % st.sources.length) 0
      = st.sources.get ⟨rand st.randIdx % st.sources.length, hidxlt⟩ := by
    rw [List.getD_eq_getElem?_getD, List.getElem?_eq_getElem hidxlt]
    rfl
  have hs_cur : st.sources.getD (rand st.randIdx % st.sources.length) 0
      ∈ st.currentNodes := by
    rw [hs_get]
    exact inv.srcMem _ (List.get_mem _ _ _)
  show (st.currentNodes.erase
    (st.sources.getD (rand st.randIdx % st.sources.length) 0)).card < _
  exact Finset.card_erase_lt_of_mem hs_cur

lemma attemptLoop_exhausts (S : Solver) (hWF : SolverWF S) (k : Int)
    (rand : Nat → Nat) :
    ∀ fuel st, AttemptInv S st → st.currentNodes.card + 1 ≤ fuel →
      (attemptLoop S k rand fuel st).currentWeight ≤ k ∨
        (attemptLoop S k rand fuel st).currentNodes = ∅ := by
  intro fuel
  induction fuel with
  | zero => intro st _ h; omega
  | succ fuel ih =>
      intro st inv hfuel
      simp only [attemptLoop]
      split_ifs with h1 h2
      · exact Or.inl h1
      · right
        by_contra hcon
        have hne : st.currentNodes.Nonempty :=
          Finset.nonempty_iff_ne_empty.mpr hcon
        rcases exists_source S hWF st.currentNodes hne with ⟨x, hx, hnopred⟩
        have hdeg0 : st.inDegree x = 0 := by
          rw [inv.degCount x]
          have hfe : st.currentNodes.filter (fun u => x ∈ S.dagAdj u) = ∅ :=
            Finset.filter_eq_empty_iff.mpr (fun u hu => hnopred u hu)
          rw [hfe]
          rfl
        have hxs := inv.zeroSrc x hx hdeg0
        rw [List.isEmpty_iff.mp h2] at hxs
        exact List.not_mem_nil x hxs
      · have hne' : st.sources ≠ [] := by
          intro hcon
          exact h2 (by simp [hcon])
        refine ih _ (attemptStep_inv S hWF rand st inv hne') ?_
        have := attemptStep_card_lt S rand st inv hne'
        omega

/-- Under a well-formed solver and `0 ≤ k`, every attempt's final remaining
weight is at most `k` (the reduction can always continue down to the empty
set, whose weight is `0`). -/
lemma runAttempt_weight_le (S : Solver) (hWF : SolverWF S) {k : Int}
    (hk : 0 ≤ k) (rand : Nat → Nat) (ops ridx : Nat) :
    (runAttempt S k rand ops ridx).currentWeight ≤ k := by
  have hinit := initAttempt_inv S hWF ops ridx
  have hfuel : (initAttempt S ops ridx).currentNodes.card + 1
      ≤ S.dagNodes.length + 1 := by
    have h1 : S.dagNodes.toFinset.card ≤ S.dagNodes.length :=
      S.dagNodes.toFinset_card_le
    have h2 : (initAttempt S ops ridx).currentNodes = S.dagNodes.toFinset := rfl
    rw [h2]
    omega
  rcases attemptLoop_exhausts S hWF k rand (S.dagNodes.length + 1) _ hinit hfuel
    with h | h
  · exact h
  · have hinv := attemptLoop_inv S hWF k rand (S.dagNodes.length + 1) _ hinit
    show (attemptLoop S k rand (S.dagNodes.length + 1)
      (initAttempt S ops ridx)).currentWeight ≤ k
    rw [hinv.weightEq, h]
    simpa using hk

lemma scoredLoop_fst (S : Solver) (k : Int) (rand : Nat → Nat)
    (timeEx : Nat → Bool) :
    ∀ fuel i st, (scoredLoop S k rand timeEx fuel i st).1
      = solveLoop S k rand timeEx fuel i st := by
  intro fuel
  induction fuel with
  | zero => intro i st; rfl
  | succ fuel ih =>
      intro i st
      simp only [scoredLoop, solveLoop]
      split_ifs <;> first | rfl | exact ih _ _

lemma foldl_max_le {k : Int} : ∀ (l : List Int) (b : Int), b ≤ k →
    (∀ x ∈ l, x ≤ k) → l.foldl max b ≤ k := by
  intro l
  induction l with
  | nil => intro b hb _; exact hb
  | cons x xs ih =>
      intro b hb hl
      simp only [List.foldl_cons]
      exact ih _ (max_le hb (hl x (List.mem_cons_self x xs)))
        (fun y hy => hl y (List.mem_cons_of_mem x hy))

lemma solveLoop_bestWeight_foldl (S : Solver) (k : Int) (rand : Nat → Nat)
    (timeEx : Nat → Bool) :
    ∀ fuel i st, (solveLoop S k rand timeEx fuel i st).bestWeight
      = ((scoredLoop S k rand timeEx fuel i st).2.map Prod.fst).foldl max
          st.bestWeight := by
  intro fuel
  induction fuel with
  | zero => intro i st; rfl
  | succ fuel ih =>
      intro i st
      simp only [solveLoop, scoredLoop]
      by_cases h1 : timeEx i = true
      · rw [if_pos h1, if_pos h1]
        rfl
      · rw [if_neg h1, if_neg h1]
        set res := runAttempt S k rand st.opCount st.randIdx with hres
        by_cases h2 : res.removedSeq.toFinset ∈ st.visited
        · rw [if_pos h2, if_pos h2]
          exact ih _ _
        · rw [if_neg h2, if_neg h2]
          by_cases h3 : res.currentWeight ≤ k
          · rw [if_pos h3, if_pos h3]
            by_cases h5 : st.bestWeight < res.currentWeight
            · rw [if_pos h5]
              by_cases h4 : res.currentWeight = k
              · rw [if_pos h4, if_pos h4]
                simp only [List.map_cons, List.map_nil, List.foldl_cons,
                  List.foldl_nil]
                exact (max_eq_right (le_of_lt h5)).symm
              · rw [if_neg h4, if_neg h4]
                simp only [List.map_cons, List.foldl_cons]
                rw [ih, max_eq_right (le_of_lt h5)]
            · rw [if_neg h5]
              by_cases h4 : res.currentWeight = k
              · rw [if_pos h4, if_pos h4]
                simp only [List.map_cons, List.map_nil, List.foldl_cons,
                  List.foldl_nil]
                exact (max_eq_left (not_lt.mp h5)).symm
              · rw [if_neg h4, if_neg h4]
                simp only [List.map_cons, List.foldl_cons]
                rw [ih, max_eq_left (not_lt.mp h5)]
          · rw [if_neg h3, if_neg h3]
            exact ih _ _

lemma scoredLoop_weights_le (S : Solver) (k : Int) (rand : Nat → Nat)
    (timeEx : Nat → Bool) :
    ∀ fuel i st, ∀ x ∈ (scoredLoop S k rand timeEx fuel i st).2, x.1 ≤ k := by
  intro fuel
  induction fuel with
  | zero => intro i st x hx; simp [scoredLoop] at hx
  | succ fuel ih =>
      intro i st x hx
      simp only [scoredLoop] at hx
      by_cases h1 : timeEx i = true
      · rw [if_pos h1] at hx
        simp at hx
      · rw [if_neg h1] at hx
        by_cases h2 : (runAttempt S k rand st.opCount
            st.randIdx).removedSeq.toFinset ∈ st.visited
        · rw [if_pos h2] at hx
          exact ih _ _ x hx
        · rw [if_neg h2] at hx
          by_cases h3 : (runAttempt S k rand st.opCount
              st.randIdx).currentWeight ≤ k
          · rw [if_pos h3] at hx
            by_cases h4 : (runAttempt S k rand st.opCount
                st.randIdx).currentWeight = k
            · rw [if_pos h4] at hx
              simp at hx
              subst hx
              exact h3
            · rw [if_neg h4] at hx
              simp only [List.mem_cons] at hx
              rcases hx with rfl | hx
              · exact h3
              · exact ih _ _ x hx
          · rw [if_neg h3] at hx
            exact ih _ _ x hx

/-- When every attempt scores (`k ≥ 0` on a well-formed solver), the visited
set grows by exactly the scored states. -/
lemma solveLoop_visited (S : Solver) (k : Int) (rand : Nat → Nat)
    (timeEx : Nat → Bool)
    (hall : ∀ ops ridx, (runAttempt S k rand ops ridx).currentWeight ≤ k) :
    ∀ fuel i st,
      (solveLoop S k rand timeEx fuel i st).visited
        = st.visited
            ∪ ((scoredLoop S k rand timeEx fuel i st).2.map Prod.snd).toFinset := by
  intro fuel
  induction fuel with
  | zero => intro i st; simp [solveLoop, scoredLoop]
  | succ fuel ih =>
      intro i st
      simp only [solveLoop, scoredLoop]
      by_cases h1 : timeEx i = true
      · rw [if_pos h1, if_pos h1]
        simp
      · rw [if_neg h1, if_neg h1]
        by_cases h2 : (runAttempt S k rand st.opCount
            st.randIdx).removedSeq.toFinset ∈ st.visited
        · rw [if_pos h2, if_pos h2]
          exact ih _ _
        · rw [if_neg h2, if_neg h2,
            if_pos (hall st.opCount st.randIdx), if_pos (hall st.opCount st.randIdx)]
          by_cases h5 : st.bestWeight
              < (runAttempt S k rand st.opCount st.randIdx).currentWeight
          · rw [if_pos h5]
            by_cases h4 : (runAttempt S k rand st.opCount
                st.randIdx).currentWeight = k
            · rw [if_pos h4, if_pos h4]
              ext a
              simp
              try tauto
            · rw [if_neg h4, if_neg h4, ih]
              ext a
              simp
              try tauto
          · rw [if_neg h5]
            by_cases h4 : (runAttempt S k rand st.opCount
                st.randIdx).currentWeight = k
            · rw [if_pos h4, if_pos h4]
              ext a
              simp
              try tauto
            · rw [if_neg h4, if_neg h4, ih]
              ext a
              simp
              try tauto

/-- C2 counterexample: on the fast path (`k` at least the vertex count) the
call performs and scores no attempt, yet reports `final_weight` equal to the
total weight, not `-1` — the claimed equality with the maximum over scored
attempts fails there. -/
theorem C2_counterexample :
    ¬ ((solve (mkSolver exampleGraph) 5 50 (fun _ => 0)
          (fun _ => false)).finalWeight ≤ 5 ∧
        (solve (mkSolver exampleGraph) 5 50 (fun _ => 0)
          (fun _ => false)).finalWeight
          = listMaxNeg ((scoredAttempts (mkSolver exampleGraph) 5 50 (fun _ => 0)
              (fun _ => false)).map Prod.fst)) := by
  decide

/-- C2 (amended): restricted to calls that take the search path
(`0 ≤ k <` total weight), `final_weight` never exceeds `k` and equals the
maximum weight among the scored (non-duplicate, weight ≤ k) attempts, `-1`
when none scored; on the fast path the code instead reports the total
weight. -/
theorem C2_final_weight_is_max (S : Solver) {k : Int} (hk : 0 ≤ k)
    (hlt : k < (S.totalWeight : Int)) (m : Nat) (rand : Nat → Nat)
    (timeEx : Nat → Bool) :
    (solve S k m rand timeEx).finalWeight ≤ k ∧
      (solve S k m rand timeEx).finalWeight
        = listMaxNeg ((scoredAttempts S k m rand timeEx).map Prod.fst) := by
  have hnot : ¬ ((S.totalWeight : Int) ≤ k) := not_le.mpr hlt
  unfold solve scoredAttempts
  rw [if_neg hnot, if_neg hnot]
  constructor
  · show (solveLoop S k rand timeEx m 0 initSolveState).bestWeight ≤ k
    rw [solveLoop_bestWeight_foldl]
    refine foldl_max_le _ _ ?_ ?_
    · show (-1 : Int) ≤ k
      omega
    · intro x hx
      rcases List.mem_map.mp hx with ⟨p, hp, rfl⟩
      exact scoredLoop_weights_le S k rand timeEx m 0 _ p hp
  · show (solveLoop S k rand timeEx m 0 initSolveState).bestWeight = _
    rw [solveLoop_bestWeight_foldl]
    rfl

theorem C2_final_weight_is_max_witness :
    ((0 : Int) ≤ 3 ∧ (3 : Int) < ((mkSolver exampleGraph).totalWeight : Int)) ∧
      ((solve (mkSolver exampleGraph) 3 50 (fun _ => 0)
          (fun _ => false)).finalWeight ≤ 3 ∧
        (solve (mkSolver exampleGraph) 3 50 (fun _ => 0)
          (fun _ => false)).finalWeight
          = listMaxNeg ((scoredAttempts (mkSolver exampleGraph) 3 50 (fun _ => 0)
              (fun _ => false)).map Prod.fst)) :=
  ⟨⟨by decide, by decide⟩,
    C2_final_weight_is_max (mkSolver exampleGraph) (by decide) (by decide) 50
      (fun _ => 0) (fun _ => false)⟩

/-- C7 counterexample: the code adds every non-duplicate attempt's state to
`visited_states` before checking the weight, so with `k = -1` (no attempt
can score, every attempt bottoms out at weight `0 > k`) `unique_tested` is
`1` while the number of distinct scored states is `0`. -/
theorem C7_counterexample :
    ¬ ((solve (mkSolver exampleGraph) (-1) 1 (fun _ => 0)
          (fun _ => false)).uniqueTested
        = ((scoredAttempts (mkSolver exampleGraph) (-1) 1 (fun _ => 0)
            (fun _ => false)).map Prod.snd).toFinset.card) := by
  decide

/-- C7 (amended): for `0 ≤ k` (any call with a non-negative target) every
attempt ends with weight ≤ k — on the acyclic condensation the frontier only
empties once everything is removed — so every non-duplicate attempt is
scored and `unique_tested` equals the number of distinct scored
removed-supernode sets.  For `k < 0`, unscored attempts are still counted. -/
theorem C7_unique_tested_counts_scored (S : Solver) (hWF : SolverWF S)
    {k : Int} (hk : 0 ≤ k) (m : Nat) (rand : Nat → Nat) (timeEx : Nat → Bool) :
    (solve S k m rand timeEx).uniqueTested
      = ((scoredAttempts S k m rand timeEx).map Prod.snd).toFinset.card := by
  unfold solve scoredAttempts
  split_ifs with h
  · rfl
  · show (solveLoop S k rand timeEx m 0 initSolveState).visited.card = _
    rw [solveLoop_visited S k rand timeEx
      (fun ops ridx => runAttempt_weight_le S hWF hk rand ops ridx) m 0 _]
    show ((∅ : Finset (Finset Nat)) ∪ _).card = _
    rw [Finset.empty_union]

theorem C7_unique_tested_counts_scored_witness :
    (SolverWF (mkSolver exampleGraph) ∧ (0 : Int) ≤ 3) ∧
      (solve (mkSolver exampleGraph) 3 50 (fun _ => 0)
          (fun _ => false)).uniqueTested
        = ((scoredAttempts (mkSolver exampleGraph) 3 50 (fun _ => 0)
            (fun _ => false)).map Prod.snd).toFinset.card :=
  ⟨⟨mkSolver_solverWF exampleGraph (by decide), by decide⟩,
    C7_unique_tested_counts_scored (mkSolver exampleGraph)
      (mkSolver_solverWF exampleGraph (by decide)) (by decide) 50
      (fun _ => 0) (fun _ => false)⟩

end ClosureSolver
